import Mathlib

/-!
Shallow embedding of the core of `alphabeta.py` (a semi-strong Connect-Four
solver driver): the `TT49x8RobinHood` transposition table, the board codec
(`moveseq_to_board_42`, `moveseq_to_board49`, `board49_to_board42`) and the
alpha-beta driver `search`.

Modelling conventions:
* Python ints are `Nat`/`Int`; all machine arithmetic in the source is
  arbitrary-precision already, except for the deliberate `mod 2^64` masking
  in `_hash64`, which is kept explicit here.
* a move sequence (a Python string of decimal digits) is a `List Nat`; the
  source's character check rejects non-digits, which here appears as the
  guard `10 ≤ col` (a digit character always yields a value below 10).
* Python exceptions (`ValueError`, `AssertionError`, `NameError`) and the
  implicit `None` returns are modelled with `Except Err` / `Option`.
* mutable arrays / 2-d lists become `List Nat` with `List.set`, resp.
  functions `Nat → Nat → Char` updated pointwise, matching the element
  assignments in the source.
* the `while dib < cap` loops of `get`/`set` are written with an explicit
  structural fuel parameter in front of the source's own `dib < cap` guard.
  For `get` the fuel `cap + 1` is never the reason the loop stops (the
  guard fires first, and both stops return `none`).  For `set`, one loop
  iteration increases (sum of displacements of occupied slots) + dib by
  exactly one, and that potential is bounded by cap * cap + cap, so the
  fuel `cap * cap + cap + 1` passed by `TT.set` is never exhausted; if it
  were, the result would be the in-progress state, exactly like the
  source's fall-through when `dib` reaches `cap`.
* the external WDL oracle subprocess is modelled as a pure total function
  `List Nat → Bool × List (Option Int)` (the line protocol is strict
  request/response, and one request yields one compact line of 1 + 7
  fields), and the global transposition table is threaded through `search`
  as explicit state.
* the recursion of `search` is bounded by a fuel parameter; exhaustion is
  the distinguished error `Err.fuelOut`, which never occurs for legal
  inputs with fuel at least `43 - length` (claim C10).
-/

/-- Error kinds of the embedded program: `badInput` for codec `ValueError`s,
`keyRange`/`valRange`/`badCapacity` for the table's `ValueError`s,
`emptyMax` for `max` of an empty sequence, `assertFail` for a failed
`assert`, `unboundLocal` for the `NameError` on `first_move`, and
`fuelOut` for exhaustion of the recursion fuel (no Python counterpart). -/
inductive Err where
  | badInput
  | keyRange
  | valRange
  | badCapacity
  | emptyMax
  | assertFail
  | unboundLocal
  | fuelOut
deriving DecidableEq, Repr

deriving instance DecidableEq for Except

/-! ## TT49x8RobinHood -/

/-- Class constant `KEY_BITS = 50`. -/
def KEY_BITS : Nat := 50

/-- Class constant `KEY_MASK = (1 << KEY_BITS) - 1`. -/
def KEY_MASK : Nat := (1 <<< KEY_BITS) - 1

/-- Class constant `VAL_SHIFT = KEY_BITS`. -/
def VAL_SHIFT : Nat := KEY_BITS

/-- Class constant `KEY_MAX = (1 << 49) - 1`. -/
def KEY_MAX : Nat := (1 <<< 49) - 1

/-- State of a `TT49x8RobinHood` instance: capacity, slot array, size. -/
structure TT where
  cap : Nat
  slots : List Nat
  size : Nat
deriving DecidableEq, Repr

/-- `TT49x8RobinHood._hash64`: SplitMix64-style mixing on 64-bit words. -/
def TT.hash64 (x : Nat) : Nat :=
  let m := (1 <<< 64) - 1
  let x1 := x &&& m
  let x2 := (x1 + 0x9E3779B97F4A7C15) &&& m
  let x3 := ((x2 ^^^ (x2 >>> 30)) * 0xBF58476D1CE4E5B9) &&& m
  let x4 := ((x3 ^^^ (x3 >>> 27)) * 0x94D049BB133111EB) &&& m
  x4 ^^^ (x4 >>> 31)

/-- `TT49x8RobinHood._home`: home slot of a key-plus value. -/
def TT.home (cap kp : Nat) : Nat := TT.hash64 kp % cap

/-- `TT49x8RobinHood._dist`: modular distance from `home` to `idx`. -/
def TT.dist (cap idx hm : Nat) : Nat :=
  if hm ≤ idx then idx - hm else idx + cap - hm

/-- Index increment with wrap-around (`i += 1; if i == cap: i = 0`). -/
def nextIdx (cap i : Nat) : Nat := if i + 1 = cap then 0 else i + 1

/-- The probe loop of `TT49x8RobinHood.get`.  The first argument of the
recursion is the fuel (see the module comment); the source's own loop guard
`dib < cap` is tested inside. -/
def getLoop (cap kp : Nat) (slots : List Nat) : Nat → Nat → Nat → Option Nat
  | 0, _, _ => none
  | fuel + 1, i, dib =>
    if cap ≤ dib then none
    else
      let e := slots.getD i 0
      if e = 0 then none
      else if e &&& KEY_MASK = kp then some (e >>> VAL_SHIFT)
      else if TT.dist cap i (TT.home cap (e &&& KEY_MASK)) < dib then none
      else getLoop cap kp slots fuel (nextIdx cap i) (dib + 1)

/-- `TT49x8RobinHood.get`. -/
def TT.get (t : TT) (key : Int) : Except Err (Option Nat) :=
  if key < 0 ∨ (KEY_MAX : Int) < key then .error .keyRange
  else
    let kp := key.toNat + 1
    .ok (getLoop t.cap kp t.slots (t.cap + 1) (TT.home t.cap kp) 0)

/-- The probe/displacement loop of `TT49x8RobinHood.set`.  `kp` is the
key-plus of the key being inserted (the source's `kp`, fixed for the whole
loop); `entry` is the currently carried slot word (initially the new entry,
later possibly a displaced incumbent). -/
def setLoop (cap kp : Nat) : Nat → Nat → List Nat → Nat → Nat → Nat → List Nat × Nat
  | 0, _, slots, size, _, _ => (slots, size)
  | fuel + 1, entry, slots, size, i, dib =>
    if cap ≤ dib then (slots, size)
    else
      let e := slots.getD i 0
      if e = 0 then (slots.set i entry, size + 1)
      else if e &&& KEY_MASK = kp then (slots.set i entry, size)
      else
        let inc_dib := TT.dist cap i (TT.home cap (e &&& KEY_MASK))
        if inc_dib < dib then
          setLoop cap kp fuel e (slots.set i entry) size (nextIdx cap i) (inc_dib + 1)
        else
          setLoop cap kp fuel entry slots size (nextIdx cap i) (dib + 1)

/-- `TT49x8RobinHood.set`. -/
def TT.set (t : TT) (key value : Int) : Except Err TT :=
  if key < 0 ∨ (KEY_MAX : Int) < key then .error .keyRange
  else if value < 0 ∨ (((1 <<< 14 : Nat) : Int)) ≤ value then .error .valRange
  else
    let kp := key.toNat + 1
    let entry := kp ||| (value.toNat <<< VAL_SHIFT)
    let r := setLoop t.cap kp (t.cap * t.cap + t.cap + 1) entry t.slots t.size (TT.home t.cap kp) 0
    .ok ⟨t.cap, r.1, r.2⟩

/-- `TT49x8RobinHood.__init__`. -/
def TT.new (capacity : Int) : Except Err TT :=
  if capacity ≤ 0 then .error .badCapacity
  else .ok ⟨capacity.toNat, List.replicate capacity.toNat 0, 0⟩

/-! ## Board codec -/

/-- The per-move loop of `moveseq_to_board_42`: a 2-d board of characters
(rows top to bottom) plus the per-column stone counts. -/
def moveseq_to_board_42_loop (width height : Nat) :
    List Nat → Nat → (Nat → Nat → Char) → (Nat → Nat) →
    Option ((Nat → Nat → Char) × (Nat → Nat))
  | [], _, board, heights => some (board, heights)
  | col :: rest, ply, board, heights =>
    if 10 ≤ col then none
    else if width ≤ col then none
    else if height ≤ heights col then none
    else
      let row := height - 1 - heights col
      let stone := if ply % 2 = 0 then 'x' else 'o'
      moveseq_to_board_42_loop width height rest (ply + 1)
        (fun r c => if r = row ∧ c = col then stone else board r c)
        (fun c => if c = col then heights c + 1 else heights c)

/-- `moveseq_to_board_42`: straightforward row/column simulation producing
the 42-character board string (as a list of characters). -/
def moveseq_to_board_42 (moveseq : List Nat) (width height : Nat) : Option (List Char) :=
  match moveseq_to_board_42_loop width height moveseq 0 (fun _ _ => '.') (fun _ => 0) with
  | none => none
  | some (board, _) =>
    some (List.flatten ((List.range height).map fun r =>
      (List.range width).map fun c => board r c))

/-- The per-move loop of `moveseq_to_board49`: per-column heights and
bottom-to-top 'o' bit patterns. -/
def moveseq_to_board49_loop (width height : Nat) :
    List Nat → Nat → (Nat → Nat) → (Nat → Nat) →
    Option ((Nat → Nat) × (Nat → Nat))
  | [], _, heights, patterns => some (heights, patterns)
  | col :: rest, ply, heights, patterns =>
    if 10 ≤ col then none
    else if width ≤ col then none
    else if height ≤ heights col then none
    else
      moveseq_to_board49_loop width height rest (ply + 1)
        (fun c => if c = col then heights c + 1 else heights c)
        (if ply % 2 = 1 then
          (fun c => if c = col then patterns c ||| (1 <<< heights col) else patterns c)
         else patterns)

/-- `moveseq_to_board49`: the collision-free 49-bit board encoding. -/
def moveseq_to_board49 (moveseq : List Nat) (width height : Nat) : Option Nat :=
  if ¬(width = 7 ∧ height = 6) ∧ ¬(1 ≤ width ∧ 1 ≤ height ∧ height ≤ 63) then none
  else
    match moveseq_to_board49_loop width height moveseq 0 (fun _ => 0) (fun _ => 0) with
    | none => none
    | some (heights, patterns) =>
      some ((List.range width).foldl
        (fun board49 col =>
          let h := heights col
          let pattern := patterns col &&& ((1 <<< h) - 1)
          let col_code := ((1 <<< h) - 1) + pattern
          board49 ||| (col_code <<< (7 * col))) 0)

/-- Python's `int.bit_length`. -/
def bitLength (n : Nat) : Nat := if n = 0 then 0 else Nat.log2 n + 1

/-- The per-column loop of `board49_to_board42`. -/
def board49_to_board42_cols (height : Nat) (b : Nat) :
    List Nat → (Nat → Nat → Char) → Option (Nat → Nat → Char)
  | [], board => some board
  | col :: rest, board =>
    let col_code := (b >>> (7 * col)) &&& ((1 <<< 7) - 1)
    let max_code := (1 <<< (height + 1)) - 2
    if max_code < col_code then none
    else
      let h := bitLength (col_code + 1) - 1
      if height < h then none
      else
        let base := (1 <<< h) - 1
        let pattern := col_code - base
        board49_to_board42_cols height b rest
          ((List.range h).foldl (fun bd row_from_bottom =>
            let row := height - 1 - row_from_bottom
            let stone := if (pattern >>> row_from_bottom) &&& 1 = 1 then 'o' else 'x'
            fun r c => if r = row ∧ c = col then stone else bd r c) board)

/-- `board49_to_board42`: decode the 49-bit board code back to the
42-character board string. -/
def board49_to_board42 (board49 : Int) (width height : Nat) : Option (List Char) :=
  if board49 < 0 then none
  else
    match board49_to_board42_cols height board49.toNat (List.range width) (fun _ _ => '.') with
    | none => none
    | some board =>
      some (List.flatten ((List.range height).map fun r =>
        (List.range width).map fun c => board r c))

/-! ## Alpha-beta driver -/

/-- The fixed move ordering `MOVE_ORDERING = [3, 2, 4, 1, 5, 0, 6]`. -/
def MOVE_ORDERING : List Nat := [3, 2, 4, 1, 5, 0, 6]

/-- The second `for move in MOVE_ORDERING` loop of the PV branch of
`search`: full-window searches of all non-first children, each required to
fail low.  `searchFn` is the recursive call (at one less fuel). -/
def siblingsLoop (searchFn : TT → List Nat → Int → Int → Except Err (Int × TT))
    (moveseq : List Nat) (alpha beta : Int) (wdl_list : List (Option Int))
    (first_move : Nat) : List Nat → TT → Except Err TT
  | [], tt => .ok tt
  | move :: rest, tt =>
    if move = first_move then
      siblingsLoop searchFn moveseq alpha beta wdl_list first_move rest tt
    else
      match wdl_list.getD move none with
      | none => siblingsLoop searchFn moveseq alpha beta wdl_list first_move rest tt
      | some _ =>
        match searchFn tt (moveseq ++ [move]) (-beta) (-alpha) with
        | .error e => .error e
        | .ok (r, tt1) =>
          if -r ≤ alpha then
            siblingsLoop searchFn moveseq alpha beta wdl_list first_move rest tt1
          else .error .assertFail

/-- The body of `search` after the transposition-table probe: the oracle
query, terminal handling, and the beta-cutoff / PV expansions.  `ub` is the
local variable `ub` of the source at this point (the probed upper bound, or
`+1` if the probe missed); `alpha` and `beta` are the possibly tightened
window. -/
def searchAfterProbe (oracle : List Nat → Bool × List (Option Int))
    (searchFn : TT → List Nat → Int → Int → Except Err (Int × TT))
    (tt : TT) (moveseq : List Nat) (board : Nat) (alpha beta ub : Int) :
    Except Err (Int × TT) :=
  let q := oracle moveseq
  let wdl_list := q.2
  if q.1 then
    match (if moveseq.length = 42 then
            match ((oracle moveseq.dropLast).2.filterMap id).max? with
            | none => Except.error Err.emptyMax
            | some m => Except.ok (if m = 1 then (-1 : Int) else 0)
          else Except.ok (-1 : Int)) with
    | .error e => .error e
    | .ok value =>
      match TT.set tt (board : Int) ((value + 1) + (value + 1) * 16) with
      | .error e => .error e
      | .ok tt1 => .ok (value, tt1)
  else
    match (wdl_list.filterMap id).max? with
    | none => .error .emptyMax
    | some value =>
      if beta ≤ value then
        match MOVE_ORDERING.find? (fun m => wdl_list.getD m none == some value) with
        | none =>
          match TT.set tt (board : Int) ((value + 1) + (ub + 1) * 16) with
          | .error e => .error e
          | .ok tt1 => .ok (value, tt1)
        | some move =>
          match searchFn tt (moveseq ++ [move]) (-beta) (-alpha) with
          | .error e => .error e
          | .ok (r, tt1) =>
            let child_value := -r
            if child_value = value then
              if beta ≤ child_value then
                match TT.set tt1 (board : Int) ((value + 1) + (ub + 1) * 16) with
                | .error e => .error e
                | .ok tt2 => .ok (value, tt2)
              else .error .assertFail
            else .error .assertFail
      else
        match MOVE_ORDERING.find? (fun m => wdl_list.getD m none == some value) with
        | none => .error .unboundLocal
        | some first_move =>
          match searchFn tt (moveseq ++ [first_move]) (-alpha - 1) (-alpha) with
          | .error e => .error e
          | .ok (r, tt1) =>
            let child_value := -r
            if child_value = value then
              if child_value < beta then
                match siblingsLoop searchFn moveseq (max alpha value) beta wdl_list
                        first_move MOVE_ORDERING tt1 with
                | .error e => .error e
                | .ok tt2 =>
                  match TT.set tt2 (board : Int) ((value + 1) + (value + 1) * 16) with
                  | .error e => .error e
                  | .ok tt3 => .ok (value, tt3)
              else .error .assertFail
            else .error .assertFail

/-- `search(moveseq, alpha, beta)` with the transposition table threaded as
state, the oracle as a pure function, and a recursion fuel. -/
def search (oracle : List Nat → Bool × List (Option Int)) :
    Nat → TT → List Nat → Int → Int → Except Err (Int × TT)
  | 0, _, _, _, _ => .error .fuelOut
  | fuel + 1, tt, moveseq, alpha, beta =>
    match moveseq_to_board49 moveseq 7 6 with
    | none => .error .badInput
    | some board =>
      match TT.get tt (board : Int) with
      | .error e => .error e
      | .ok none => searchAfterProbe oracle (search oracle fuel) tt moveseq board alpha beta 1
      | .ok (some tv) =>
        let lb : Int := ((tv % 16 : Nat) : Int) - 1
        let ub : Int := ((tv / 16 : Nat) : Int) - 1
        if beta ≤ lb then .ok (lb, tt)
        else if ub ≤ alpha then .ok (ub, tt)
        else searchAfterProbe oracle (search oracle fuel) tt moveseq board
              (max alpha lb) (min beta ub) ub

/-! ## Arithmetic of packed slot words -/

theorem KEY_MASK_eq : KEY_MASK = 2 ^ 50 - 1 := by
  simp [KEY_MASK, KEY_BITS, Nat.shiftLeft_eq]

theorem KEY_MAX_eq : KEY_MAX = 2 ^ 49 - 1 := by
  simp [KEY_MAX, Nat.shiftLeft_eq]

theorem entry_eq_add (kp v : Nat) (h : kp < 2 ^ 50) :
    kp ||| (v <<< VAL_SHIFT) = 2 ^ 50 * v + kp := by
  have h2 := Nat.mul_add_lt_is_or h v
  rw [VAL_SHIFT, KEY_BITS, Nat.shiftLeft_eq, Nat.mul_comm v (2 ^ 50), Nat.or_comm]
  exact h2.symm

theorem entry_key (kp v : Nat) (h : kp < 2 ^ 50) :
    (kp ||| (v <<< VAL_SHIFT)) &&& KEY_MASK = kp := by
  rw [entry_eq_add kp v h, KEY_MASK_eq, Nat.and_pow_two_sub_one_eq_mod, Nat.mul_add_mod,
    Nat.mod_eq_of_lt h]

theorem entry_val (kp v : Nat) (h : kp < 2 ^ 50) :
    (kp ||| (v <<< VAL_SHIFT)) >>> VAL_SHIFT = v := by
  rw [entry_eq_add kp v h, VAL_SHIFT, KEY_BITS, Nat.shiftRight_eq_div_pow,
    Nat.mul_add_div (by positivity), Nat.div_eq_of_lt h, Nat.add_zero]

theorem entry_ne_zero (kp v : Nat) (h : kp < 2 ^ 50) (h0 : 0 < kp) :
    kp ||| (v <<< VAL_SHIFT) ≠ 0 := by
  rw [entry_eq_add kp v h]; omega

/-! ## List helpers -/

theorem getD_set_self (l : List Nat) (i x : Nat) (h : i < l.length) :
    (l.set i x).getD i 0 = x := by
  simp [List.getD_eq_getElem?_getD, List.getElem?_set_self h]

theorem getD_set_ne (l : List Nat) (i j x : Nat) (h : i ≠ j) :
    (l.set i x).getD j 0 = l.getD j 0 := by
  simp [List.getD_eq_getElem?_getD, List.getElem?_set_ne h]

theorem getD_set_cases (l : List Nat) (i j x : Nat) :
    (l.set i x).getD j 0 = x ∨ (l.set i x).getD j 0 = l.getD j 0 := by
  rcases eq_or_ne i j with rfl | h
  · by_cases hl : i < l.length
    · exact Or.inl (getD_set_self l i x hl)
    · right
      rw [List.set_eq_of_length_le (by omega)]
  · exact Or.inr (getD_set_ne l i j x h)

theorem getD_replicate_zero (n j : Nat) : (List.replicate n (0 : Nat)).getD j 0 = 0 := by
  simp [List.getD_eq_getElem?_getD, List.getElem?_replicate]
  split <;> simp

theorem nextIdx_lt (cap i : Nat) (h : i < cap) : nextIdx cap i < cap := by
  unfold nextIdx; split <;> omega

/-! ## C2: behaviour of `set` when the probe walk is exhausted -/

theorem setLoop_full_size (cap kp : Nat) :
    ∀ fuel entry slots size i dib,
      slots.length = cap → i < cap → entry ≠ 0 →
      (∀ j ∈ List.range cap, slots.getD j 0 ≠ 0) →
      (setLoop cap kp fuel entry slots size i dib).2 = size := by
  intro fuel
  induction fuel with
  | zero => intro entry slots size i dib _ _ _ _; rfl
  | succ fuel ih =>
    intro entry slots size i dib hlen hi he hfull
    have hocc : slots.getD i 0 ≠ 0 := hfull i (List.mem_range.mpr hi)
    have hfull2 : ∀ j ∈ List.range cap, (slots.set i entry).getD j 0 ≠ 0 := by
      intro j hj
      rcases getD_set_cases slots i j entry with h | h
      · rw [h]; exact he
      · rw [h]; exact hfull j hj
    simp only [setLoop]
    by_cases h1 : cap ≤ dib
    · rw [if_pos h1]
    · rw [if_neg h1, if_neg hocc]
      by_cases h2 : slots.getD i 0 &&& KEY_MASK = kp
      · rw [if_pos h2]
      · rw [if_neg h2]
        by_cases h3 : TT.dist cap i (TT.home cap (slots.getD i 0 &&& KEY_MASK)) < dib
        · rw [if_pos h3]
          exact ih _ _ _ _ _ (by rw [List.length_set]; exact hlen)
            (nextIdx_lt cap i hi) hocc hfull2
        · rw [if_neg h3]
          exact ih _ _ _ _ _ hlen (nextIdx_lt cap i hi) he hfull

/-- Helper: bounds on `kp = key.toNat + 1` for an in-range key. -/
theorem kp_bounds (k : Int) (hk0 : 0 ≤ k) (hk1 : k ≤ (KEY_MAX : Int)) :
    0 < k.toNat + 1 ∧ k.toNat + 1 < 2 ^ 50 := by
  have h1 : k.toNat ≤ KEY_MAX := by
    have := Int.toNat_le_toNat hk1
    simpa using this
  have h2 : KEY_MAX = 2 ^ 49 - 1 := KEY_MAX_eq
  constructor
  · omega
  · have : (2 : Nat) ^ 49 < 2 ^ 50 := by norm_num
    omega

/-- Helper: with in-range key and value, `TT.set` always returns `.ok` and
the result is the loop outcome. -/
theorem set_ok (t : TT) (k v : Int) (hk0 : 0 ≤ k) (hk1 : k ≤ (KEY_MAX : Int))
    (hv0 : 0 ≤ v) (hv1 : v < ((1 <<< 14 : Nat) : Int)) :
    TT.set t k v = .ok ⟨t.cap,
      (setLoop t.cap (k.toNat + 1) (t.cap * t.cap + t.cap + 1)
        ((k.toNat + 1) ||| (v.toNat <<< VAL_SHIFT)) t.slots t.size
        (TT.home t.cap (k.toNat + 1)) 0).1,
      (setLoop t.cap (k.toNat + 1) (t.cap * t.cap + t.cap + 1)
        ((k.toNat + 1) ||| (v.toNat <<< VAL_SHIFT)) t.slots t.size
        (TT.home t.cap (k.toNat + 1)) 0).2⟩ := by
  rw [TT.set, if_neg (by omega), if_neg (by omega)]

/-- Helper: with an in-range key, `TT.get` always returns `.ok` of the loop
outcome. -/
theorem get_ok (t : TT) (k : Int) (hk0 : 0 ≤ k) (hk1 : k ≤ (KEY_MAX : Int)) :
    TT.get t k = .ok (getLoop t.cap (k.toNat + 1) t.slots (t.cap + 1)
      (TT.home t.cap (k.toNat + 1)) 0) := by
  rw [TT.get, if_neg (by omega)]

/-- The concrete one-slot table holding key 0 with value 5
(slot word 5 * 2 ^ 50 + 1), as produced by `TT.new 1` and `set 0 5`. -/
def ttC2 : TT := ⟨1, [5629499534213121], 1⟩

/-- C2: counterexample.  On the full one-slot table `ttC2` (reached from
`TT.new 1` by `set 0 5`), inserting the fresh in-range key 1 makes the
Robin-Hood traversal reach `capacity` probe steps without placing the
entry, yet `set` returns normally (no table-full error), the entry is
dropped (`get 1` still reports absent) and the table is unchanged. -/
theorem C2_counterexample :
    TT.new 1 = .ok ⟨1, [0], 0⟩ ∧
    TT.set ⟨1, [0], 0⟩ 0 5 = .ok ttC2 ∧
    TT.set ttC2 1 6 = .ok ttC2 ∧
    TT.get ttC2 1 = .ok none ∧
    ttC2.size = 1 := by decide

/-- C2 as amended: when every slot is occupied (so a traversal that never
finds the key walks all `capacity` probe steps), `set` on an in-range key
and value does not signal any table-full error; it returns normally and
leaves `size` unchanged (the carried entry is dropped). -/
theorem set_table_full_returns_normally (t : TT) (k v : Int)
    (hlen : t.slots.length = t.cap) (hcap : 0 < t.cap)
    (hk0 : 0 ≤ k) (hk1 : k ≤ (KEY_MAX : Int))
    (hv0 : 0 ≤ v) (hv1 : v < ((1 <<< 14 : Nat) : Int))
    (hfull : ∀ j ∈ List.range t.cap, t.slots.getD j 0 ≠ 0) :
    ∃ t2, TT.set t k v = .ok t2 ∧ t2.size = t.size := by
  obtain ⟨hkp0, hkp1⟩ := kp_bounds k hk0 hk1
  refine ⟨_, set_ok t k v hk0 hk1 hv0 hv1, ?_⟩
  exact setLoop_full_size t.cap (k.toNat + 1) _ _ _ _ _ _ hlen
    (Nat.mod_lt _ hcap) (entry_ne_zero _ _ hkp1 hkp0) hfull

/-- Witness for the amended C2 theorem at the concrete table `ttC2`. -/
theorem set_table_full_returns_normally_witness :
    ttC2.slots.length = ttC2.cap ∧
    (∃ t2, TT.set ttC2 1 6 = .ok t2 ∧ t2.size = ttC2.size) :=
  ⟨by decide, set_table_full_returns_normally ttC2 1 6 (by decide) (by decide)
    (by decide) (by decide) (by decide) (by decide) (by decide)⟩

/-! ## Codec: properties of the encoding loop -/

theorem enc_loop_heights :
    ∀ (s : List Nat) (ply : Nat) (hs ps hs2 ps2 : Nat → Nat),
      moveseq_to_board49_loop 7 6 s ply hs ps = some (hs2, ps2) →
      ∀ c, hs2 c = hs c + s.count c := by
  intro s
  induction s with
  | nil =>
    intro ply hs ps hs2 ps2 h c
    simp only [moveseq_to_board49_loop, Option.some.injEq, Prod.mk.injEq] at h
    rw [← h.1]
    simp
  | cons col rest ih =>
    intro ply hs ps hs2 ps2 h c
    simp only [moveseq_to_board49_loop] at h
    by_cases g1 : 10 ≤ col
    · rw [if_pos g1] at h; simp at h
    rw [if_neg g1] at h
    by_cases g2 : 7 ≤ col
    · rw [if_pos g2] at h; simp at h
    rw [if_neg g2] at h
    by_cases g3 : 6 ≤ hs col
    · rw [if_pos g3] at h; simp at h
    rw [if_neg g3] at h
    have hrec := ih _ _ _ _ _ h c
    rw [hrec]
    by_cases hc : c = col
    · subst hc
      simp [List.count_cons]
      omega
    · have : ¬ col = c := fun hh => hc hh.symm
      simp [List.count_cons, this, hc]

theorem enc_loop_inv :
    ∀ (s : List Nat) (ply : Nat) (hs ps hs2 ps2 : Nat → Nat),
      moveseq_to_board49_loop 7 6 s ply hs ps = some (hs2, ps2) →
      (∀ c, hs c ≤ 6) → (∀ c, ps c < 2 ^ hs c) →
      (∀ c, hs2 c ≤ 6) ∧ (∀ c, ps2 c < 2 ^ hs2 c) := by
  intro s
  induction s with
  | nil =>
    intro ply hs ps hs2 ps2 h h1 h2
    simp only [moveseq_to_board49_loop, Option.some.injEq, Prod.mk.injEq] at h
    rw [← h.1, ← h.2]
    exact ⟨h1, h2⟩
  | cons col rest ih =>
    intro ply hs ps hs2 ps2 h h1 h2
    simp only [moveseq_to_board49_loop] at h
    by_cases g1 : 10 ≤ col
    · rw [if_pos g1] at h; simp at h
    rw [if_neg g1] at h
    by_cases g2 : 7 ≤ col
    · rw [if_pos g2] at h; simp at h
    rw [if_neg g2] at h
    by_cases g3 : 6 ≤ hs col
    · rw [if_pos g3] at h; simp at h
    rw [if_neg g3] at h
    refine ih _ _ _ _ _ h ?_ ?_
    · intro c
      by_cases hc : c = col
      · subst hc; simp only [ite_true, eq_self_iff_true, if_true]; omega
      · simp only [if_neg hc]; exact h1 c
    · intro c
      by_cases hply : ply % 2 = 1
      · rw [if_pos hply]
        by_cases hc : c = col
        · subst hc
          simp only [ite_true, eq_self_iff_true, if_true]
          have hx : ps c < 2 ^ (hs c + 1) :=
            lt_of_lt_of_le (h2 c) (Nat.pow_le_pow_right (by norm_num) (by omega))
          have hy : (1 <<< hs c) < 2 ^ (hs c + 1) := by
            rw [Nat.shiftLeft_eq, one_mul]
            exact Nat.pow_lt_pow_right (by norm_num) (by omega)
          exact Nat.or_lt_two_pow hx hy
        · simp only [if_neg hc]
          exact h2 c
      · rw [if_neg hply]
        by_cases hc : c = col
        · subst hc
          simp only [ite_true, eq_self_iff_true, if_true]
          exact lt_of_lt_of_le (h2 c) (Nat.pow_le_pow_right (by norm_num) (by omega))
        · simp only [if_neg hc]
          exact h2 c

theorem enc_loop_append :
    ∀ (s t : List Nat) (ply : Nat) (hs ps : Nat → Nat),
      moveseq_to_board49_loop 7 6 (s ++ t) ply hs ps =
        (moveseq_to_board49_loop 7 6 s ply hs ps).bind
          (fun r => moveseq_to_board49_loop 7 6 t (ply + s.length) r.1 r.2) := by
  intro s
  induction s with
  | nil =>
    intro t ply hs ps
    simp [moveseq_to_board49_loop]
  | cons col rest ih =>
    intro t ply hs ps
    simp only [List.cons_append, moveseq_to_board49_loop, List.length_cons]
    by_cases g1 : 10 ≤ col
    · simp only [if_pos g1]; rfl
    simp only [if_neg g1]
    by_cases g2 : 7 ≤ col
    · simp only [if_pos g2]; rfl
    simp only [if_neg g2]
    by_cases g3 : 6 ≤ hs col
    · simp only [if_pos g3]; rfl
    simp only [if_neg g3, List.append_eq]
    rw [ih]
    have harith : ply + (rest.length + 1) = (ply + 1) + rest.length := by omega
    rw [harith]

/-! ## Base-128 packing of the seven column codes -/

/-- Little-endian base-128 value of a list of digits (the board code is the
base-128 number whose digit `c` is column `c`'s code). -/
def packList : List Nat → Nat
  | [] => 0
  | x :: rest => x + 128 * packList rest

theorem packList_lt : ∀ (L : List Nat), (∀ x ∈ L, x < 128) → packList L < 128 ^ L.length := by
  intro L
  induction L with
  | nil => intro _; simp [packList]
  | cons x rest ih =>
    intro h
    have hp := ih (fun y hy => h y (by simp [hy]))
    have hx := h x (by simp)
    have h2 : 128 * (packList rest + 1) ≤ 128 * 128 ^ rest.length :=
      Nat.mul_le_mul_left 128 hp
    simp only [packList, List.length_cons, pow_succ]
    omega

theorem packList_append : ∀ (L : List Nat) (x : Nat),
    packList (L ++ [x]) = packList L + x * 128 ^ L.length := by
  intro L x
  induction L with
  | nil => simp [packList]
  | cons y rest ih =>
    simp only [List.cons_append, packList, List.length_cons, List.append_eq]
    rw [ih, pow_succ]
    ring

theorem packList_extract : ∀ (L : List Nat), (∀ y ∈ L, y < 128) →
    ∀ c, packList L / 128 ^ c % 128 = L.getD c 0 := by
  intro L
  induction L with
  | nil => intro _ c; simp [packList]
  | cons x rest ih =>
    intro h c
    have hx := h x (by simp)
    cases c with
    | zero =>
      simp only [packList, Nat.pow_zero, Nat.div_one, List.getD_cons_zero]
      rw [Nat.add_mul_mod_self_left, Nat.mod_eq_of_lt hx]
    | succ c =>
      have hpow : (128 : Nat) ^ (c + 1) = 128 * 128 ^ c := by
        rw [pow_succ]; ring
      simp only [packList, List.getD_cons_succ, hpow]
      rw [← Nat.div_div_eq_div_mul, Nat.add_mul_div_left _ _ (by norm_num : (0:Nat) < 128),
        Nat.div_eq_of_lt hx, Nat.zero_add]
      exact ih (fun y hy => h y (by simp [hy])) c

theorem fold_or_eq_packList (code : Nat → Nat) (hcode : ∀ c, code c < 128) :
    ∀ n, (List.range n).foldl (fun b col => b ||| (code col <<< (7 * col))) 0 =
      packList ((List.range n).map code) := by
  intro n
  induction n with
  | zero => rfl
  | succ n ih =>
    rw [List.range_succ, List.foldl_append, List.map_append, ih]
    simp only [List.foldl_cons, List.foldl_nil, List.map_cons, List.map_nil]
    rw [packList_append]
    have hlen : ((List.range n).map code).length = n := by
      rw [List.length_map, List.length_range]
    have h7 : (128 : Nat) ^ n = 2 ^ (7 * n) := by
      rw [pow_mul]; norm_num
    have hlt : packList ((List.range n).map code) < 2 ^ (7 * n) := by
      have h0 := packList_lt ((List.range n).map code) (by
        intro y hy
        obtain ⟨c, _, rfl⟩ := List.mem_map.mp hy
        exact hcode c)
      rw [hlen] at h0
      rw [← h7]
      exact h0
    have hbridge := Nat.mul_add_lt_is_or hlt (code n)
    rw [Nat.shiftLeft_eq, hlen, h7, Nat.or_comm, Nat.mul_comm (code n) (2 ^ (7 * n))]
    omega

/-- The column code of column `c` in the final state of the encoding loop. -/
def colCode (hs ps : Nat → Nat) (c : Nat) : Nat :=
  ((1 <<< hs c) - 1) + (ps c &&& ((1 <<< hs c) - 1))

theorem colCode_le (hs ps : Nat → Nat) (c : Nat) (hh : hs c ≤ 6) :
    colCode hs ps c ≤ 126 := by
  unfold colCode
  rw [Nat.shiftLeft_eq, one_mul]
  have h1 : ps c &&& (2 ^ hs c - 1) ≤ 2 ^ hs c - 1 := Nat.and_le_right
  have h2 : (2 : Nat) ^ hs c ≤ 2 ^ 6 := Nat.pow_le_pow_right (by norm_num) hh
  have h3 : (2 : Nat) ^ 6 = 64 := by norm_num
  omega

/-- Characterisation of a successful `moveseq_to_board49` run: the result is
the base-128 packing of the per-column codes of the final loop state, whose
heights are at most 6 and whose patterns are in range. -/
theorem moveseq_to_board49_eq (s : List Nat) (b : Nat)
    (hb : moveseq_to_board49 s 7 6 = some b) :
    ∃ hs2 ps2, moveseq_to_board49_loop 7 6 s 0 (fun _ => 0) (fun _ => 0) = some (hs2, ps2) ∧
      (∀ c, hs2 c ≤ 6) ∧ (∀ c, ps2 c < 2 ^ hs2 c) ∧
      b = packList ((List.range 7).map (colCode hs2 ps2)) := by
  rw [moveseq_to_board49, if_neg (by simp)] at hb
  rcases hloop : moveseq_to_board49_loop 7 6 s 0 (fun _ => 0) (fun _ => 0) with _ | ⟨hs2, ps2⟩
  · rw [hloop] at hb; simp at hb
  · rw [hloop] at hb
    simp only [Option.some.injEq] at hb
    obtain ⟨hh, hp⟩ := enc_loop_inv s 0 _ _ hs2 ps2 hloop
      (fun _ => by norm_num) (fun _ => by norm_num)
    refine ⟨hs2, ps2, rfl, hh, hp, ?_⟩
    rw [← hb]
    exact fold_or_eq_packList (colCode hs2 ps2)
      (fun c => lt_of_le_of_lt (colCode_le hs2 ps2 c (hh c)) (by norm_num)) 7

/-- Any successfully encoded board is strictly below `2 ^ 49`. -/
theorem board49_lt (s : List Nat) (b : Nat)
    (hb : moveseq_to_board49 s 7 6 = some b) : b < 2 ^ 49 := by
  obtain ⟨hs2, ps2, _, hh, _, hbeq⟩ := moveseq_to_board49_eq s b hb
  have h1 : b < 128 ^ 7 := by
    rw [hbeq]
    have := packList_lt ((List.range 7).map (colCode hs2 ps2)) (by
      intro y hy
      obtain ⟨c, _, rfl⟩ := List.mem_map.mp hy
      exact lt_of_le_of_lt (colCode_le hs2 ps2 c (hh c)) (by norm_num))
    simpa using this
  have h2 : (128 : Nat) ^ 7 = 2 ^ 49 := by norm_num
  omega

/-- C9: key-range safety.  Every legal move sequence encodes to a
non-negative board code strictly below `2 ^ 49` (every column code is at
most 126), so the out-of-range key check of `TT49x8RobinHood.get` and
`TT49x8RobinHood.set` never fires when `search` probes or stores the
encoded position: both always return `.ok` results for this key (with any
in-range value for `set`). -/
theorem C9_key_range_safety (s : List Nat) (b : Nat)
    (hb : moveseq_to_board49 s 7 6 = some b) :
    (0 : Int) ≤ (b : Int) ∧ b < 2 ^ 49 ∧
    (∀ t : TT, ∃ r, TT.get t (b : Int) = .ok r) ∧
    (∀ t : TT, ∀ v : Int, 0 ≤ v → v < ((1 <<< 14 : Nat) : Int) →
      ∃ t2, TT.set t (b : Int) v = .ok t2) := by
  have hlt := board49_lt s b hb
  have hle : (b : Int) ≤ (KEY_MAX : Int) := by
    have : b ≤ KEY_MAX := by rw [KEY_MAX_eq]; omega
    exact_mod_cast this
  refine ⟨by positivity, hlt, ?_, ?_⟩
  · intro t
    exact ⟨_, get_ok t (b : Int) (by positivity) hle⟩
  · intro t v hv0 hv1
    exact ⟨_, set_ok t (b : Int) v (by positivity) hle hv0 hv1⟩

/-- Witness for C9 at the concrete legal sequence `[3]`. -/
theorem C9_witness :
    moveseq_to_board49 [3] 7 6 = some 2097152 ∧
    ((0 : Int) ≤ ((2097152 : Nat) : Int) ∧ (2097152 : Nat) < 2 ^ 49 ∧
    (∀ t : TT, ∃ r, TT.get t ((2097152 : Nat) : Int) = .ok r) ∧
    (∀ t : TT, ∀ v : Int, 0 ≤ v → v < ((1 <<< 14 : Nat) : Int) →
      ∃ t2, TT.set t ((2097152 : Nat) : Int) v = .ok t2)) :=
  ⟨by decide, C9_key_range_safety [3] 2097152 (by decide)⟩

/-! ## C6: lookup of a never-inserted key -/

/-- Apply a sequence of `set` operations to a table; an operation that
raises (out-of-range key or value) leaves the table unchanged. -/
def applyOps (t : TT) : List (Int × Int) → TT
  | [] => t
  | op :: rest =>
    applyOps (match TT.set t op.1 op.2 with | .ok t2 => t2 | .error _ => t) rest

/-- If no occupied slot carries key-plus `kp`, the probe loop of `get`
returns `none` no matter how it exits (empty slot, early exit or the
`dib < cap` guard). -/
theorem getLoop_none (cap kp : Nat) (slots : List Nat)
    (h : ∀ j, slots.getD j 0 ≠ 0 → slots.getD j 0 &&& KEY_MASK ≠ kp) :
    ∀ fuel i dib, getLoop cap kp slots fuel i dib = none := by
  intro fuel
  induction fuel with
  | zero => intro i dib; rfl
  | succ fuel ih =>
    intro i dib
    simp only [getLoop]
    by_cases h1 : cap ≤ dib
    · rw [if_pos h1]
    · rw [if_neg h1]
      by_cases h2 : slots.getD i 0 = 0
      · rw [if_pos h2]
      · rw [if_neg h2, if_neg (h i h2)]
        by_cases h3 : TT.dist cap i (TT.home cap (slots.getD i 0 &&& KEY_MASK)) < dib
        · rw [if_pos h3]
        · rw [if_neg h3]; exact ih _ _

/-- Every key field reachable in the slots after a `set` loop either was
reachable before or is the key field of the carried entry. -/
theorem setLoop_keys (cap kp : Nat) (P : Nat → Prop) :
    ∀ fuel entry slots size i dib,
      (∀ j, slots.getD j 0 ≠ 0 → P (slots.getD j 0 &&& KEY_MASK)) →
      P (entry &&& KEY_MASK) →
      ∀ j, (setLoop cap kp fuel entry slots size i dib).1.getD j 0 ≠ 0 →
        P ((setLoop cap kp fuel entry slots size i dib).1.getD j 0 &&& KEY_MASK) := by
  intro fuel
  induction fuel with
  | zero => intro entry slots size i dib hs he j hj; exact hs j hj
  | succ fuel ih =>
    intro entry slots size i dib hs he j hj
    have hset : ∀ j, (slots.set i entry).getD j 0 ≠ 0 →
        P ((slots.set i entry).getD j 0 &&& KEY_MASK) := by
      intro j2 hj2
      rcases getD_set_cases slots i j2 entry with hcase | hcase
      · rw [hcase]; exact he
      · rw [hcase]; rw [hcase] at hj2; exact hs j2 hj2
    simp only [setLoop] at hj ⊢
    by_cases h1 : cap ≤ dib
    · rw [if_pos h1] at hj ⊢; exact hs j hj
    rw [if_neg h1] at hj ⊢
    by_cases h2 : slots.getD i 0 = 0
    · rw [if_pos h2] at hj ⊢; exact hset j hj
    rw [if_neg h2] at hj ⊢
    by_cases h3 : slots.getD i 0 &&& KEY_MASK = kp
    · rw [if_pos h3] at hj ⊢; exact hset j hj
    rw [if_neg h3] at hj ⊢
    by_cases h4 : TT.dist cap i (TT.home cap (slots.getD i 0 &&& KEY_MASK)) < dib
    · rw [if_pos h4] at hj ⊢
      exact ih _ _ _ _ _ hset (hs i h2) j hj
    · rw [if_neg h4] at hj ⊢
      exact ih _ _ _ _ _ hs he j hj

/-- A successful `set` only adds the inserted key's field to the reachable
key fields. -/
theorem set_keys_preserved (t t2 : TT) (k v : Int) (P : Nat → Prop)
    (hset : TT.set t k v = .ok t2)
    (ht : ∀ j, t.slots.getD j 0 ≠ 0 → P (t.slots.getD j 0 &&& KEY_MASK))
    (hP : 0 ≤ k → k ≤ (KEY_MAX : Int) → P (k.toNat + 1)) :
    ∀ j, t2.slots.getD j 0 ≠ 0 → P (t2.slots.getD j 0 &&& KEY_MASK) := by
  rw [TT.set] at hset
  by_cases h1 : k < 0 ∨ (KEY_MAX : Int) < k
  · rw [if_pos h1] at hset; cases hset
  rw [if_neg h1] at hset
  by_cases h2 : v < 0 ∨ (((1 <<< 14 : Nat) : Int)) ≤ v
  · rw [if_pos h2] at hset; cases hset
  rw [if_neg h2] at hset
  push_neg at h1
  obtain ⟨hk0, hk1⟩ := h1
  obtain ⟨hkp0, hkp1⟩ := kp_bounds k hk0 hk1
  cases hset
  have hekey : ((k.toNat + 1) ||| (v.toNat <<< VAL_SHIFT)) &&& KEY_MASK = k.toNat + 1 :=
    entry_key _ _ hkp1
  intro j hj
  exact setLoop_keys t.cap (k.toNat + 1) P _ _ _ _ _ _ ht
    (by rw [hekey]; exact hP hk0 hk1) j hj

/-- The key-field invariant survives any sequence of `set` operations none
of which inserts key `k`. -/
theorem applyOps_keys (k : Int) :
    ∀ (ops : List (Int × Int)) (t : TT),
      (∀ j, t.slots.getD j 0 ≠ 0 → t.slots.getD j 0 &&& KEY_MASK ≠ k.toNat + 1) →
      (∀ op ∈ ops, op.1 ≠ k) → (0 ≤ k) →
      ∀ j, (applyOps t ops).slots.getD j 0 ≠ 0 →
        (applyOps t ops).slots.getD j 0 &&& KEY_MASK ≠ k.toNat + 1 := by
  intro ops
  induction ops with
  | nil => intro t ht _ _ j hj; exact ht j hj
  | cons op rest ih =>
    intro t ht hnot hk0 j hj
    simp only [applyOps] at hj ⊢
    rcases hsr : TT.set t op.1 op.2 with e | t2
    · simp only [hsr] at hj ⊢
      exact ih t ht (fun o ho => hnot o (by simp [ho])) hk0 j hj
    · simp only [hsr] at hj ⊢
      refine ih t2 ?_ (fun o ho => hnot o (by simp [ho])) hk0 j hj
      refine set_keys_preserved t t2 op.1 op.2 (fun e => e ≠ k.toNat + 1) hsr ht ?_
      intro hop0 _
      have hne : op.1 ≠ k := hnot op (by simp)
      intro hcontra
      apply hne
      have h1 : op.1.toNat = k.toNat := by omega
      have h2 : (op.1.toNat : Int) = op.1 := Int.toNat_of_nonneg hop0
      have h3 : (k.toNat : Int) = k := Int.toNat_of_nonneg hk0
      rw [← h2, ← h3, h1]

/-- C6: after any sequence of `set` operations, `get` on an in-range key
that was never passed to `set` returns `.ok none` (absent); no exit path of
the Robin-Hood probe loop can report such a key present. -/
theorem C6_get_never_inserted (cap : Int) (t0 : TT) (ops : List (Int × Int)) (k : Int)
    (hnew : TT.new cap = .ok t0)
    (hk0 : 0 ≤ k) (hk1 : k ≤ (KEY_MAX : Int))
    (hnot : ∀ op ∈ ops, op.1 ≠ k) :
    TT.get (applyOps t0 ops) k = .ok none := by
  have h0 : ∀ j, t0.slots.getD j 0 ≠ 0 → t0.slots.getD j 0 &&& KEY_MASK ≠ k.toNat + 1 := by
    rw [TT.new] at hnew
    by_cases hc : cap ≤ 0
    · rw [if_pos hc] at hnew; cases hnew
    · rw [if_neg hc] at hnew
      cases hnew
      intro j hj
      rw [getD_replicate_zero] at hj
      exact absurd rfl hj
  have hinv := applyOps_keys k ops t0 h0 hnot hk0
  rw [get_ok _ k hk0 hk1]
  rw [getLoop_none _ _ _ hinv]

/-- Witness for C6: insert key 0 into a fresh 4-slot table, then look up
the never-inserted key 1. -/
theorem C6_witness :
    TT.new 4 = .ok ⟨4, [0, 0, 0, 0], 0⟩ ∧
    TT.get (applyOps ⟨4, [0, 0, 0, 0], 0⟩ [(0, 5)]) 1 = .ok none :=
  ⟨by decide, C6_get_never_inserted 4 ⟨4, [0, 0, 0, 0], 0⟩ [(0, 5)] 1 (by decide)
    (by decide) (by decide) (by decide)⟩

/-! ## The transposition-table probe of `search` -/

/-- The probe at the top of `search` falls through to the oracle query
(no early bound-cutoff return), leaving window `(alpha2, beta2)` and local
upper bound `ub`: either the probe missed (window unchanged, `ub = 1`) or
it hit without either cutoff (window tightened). -/
def probeThrough (t : TT) (board : Nat) (alpha beta alpha2 beta2 ub : Int) : Prop :=
  (TT.get t (board : Int) = .ok none ∧ alpha2 = alpha ∧ beta2 = beta ∧ ub = 1) ∨
  (∃ tv, TT.get t (board : Int) = .ok (some tv) ∧
    ¬ beta ≤ ((tv % 16 : Nat) : Int) - 1 ∧ ¬ ((tv / 16 : Nat) : Int) - 1 ≤ alpha ∧
    alpha2 = max alpha (((tv % 16 : Nat) : Int) - 1) ∧
    beta2 = min beta (((tv / 16 : Nat) : Int) - 1) ∧
    ub = ((tv / 16 : Nat) : Int) - 1)

/-- When the probe falls through, one step of `search` is exactly
`searchAfterProbe` at the adjusted window. -/
theorem search_probeThrough (oracle : List Nat → Bool × List (Option Int))
    (fuel : Nat) (t : TT) (s : List Nat) (alpha beta alpha2 beta2 ub : Int) (board : Nat)
    (hb : moveseq_to_board49 s 7 6 = some board)
    (hp : probeThrough t board alpha beta alpha2 beta2 ub) :
    search oracle (fuel + 1) t s alpha beta =
      searchAfterProbe oracle (search oracle fuel) t s board alpha2 beta2 ub := by
  rcases hp with ⟨hget, ha, hbb, hu⟩ | ⟨tv, hget, h1, h2, ha, hbb, hu⟩
  · simp only [search, hb, hget, ha, hbb, hu]
  · simp only [search, hb, hget]
    rw [if_neg h1, if_neg h2, ha, hbb, hu]

/-- Characterisation of `List.max?` on integer lists. -/
theorem int_max?_iff {l : List Int} {a : Int} :
    l.max? = some a ↔ a ∈ l ∧ ∀ b ∈ l, b ≤ a :=
  haveI : Std.Antisymm (fun x1 x2 : Int => x1 ≤ x2) :=
    ⟨fun {x y} h1 h2 => le_antisymm h1 h2⟩
  List.max?_eq_some_iff (fun x => le_refl x) (fun x y => max_choice x y)
    (fun x y z => max_le_iff)

/-- An encoded board, as an `Int` key, is in the 49-bit key range. -/
theorem board49_int_le (s : List Nat) (b : Nat)
    (hb : moveseq_to_board49 s 7 6 = some b) :
    (0 : Int) ≤ (b : Int) ∧ (b : Int) ≤ (KEY_MAX : Int) := by
  have hlt := board49_lt s b hb
  constructor
  · positivity
  · have : b ≤ KEY_MAX := by rw [KEY_MAX_eq]; omega
    exact_mod_cast this

/-! ## C3: terminal handling of `search` -/

/-- C3: when the probe falls through and the oracle reports the position
terminal, `search` computes value −1 for positions of fewer (or more) than
42 plies, and at exactly 42 plies re-queries the oracle on
`moveseq[:-1]` and computes −1 exactly when some non-absent parent-child
value equals +1, 0 otherwise (given that the parent response has at least
one non-absent entry, all at most +1); in every case it first stores the
exact record `(value+1) + 16*(value+1)` under the position's board49 key
and returns the value. -/
theorem C3_terminal_handling (oracle : List Nat → Bool × List (Option Int))
    (fuel : Nat) (tt : TT) (s : List Nat) (alpha beta alpha2 beta2 ub : Int) (board : Nat)
    (hb : moveseq_to_board49 s 7 6 = some board)
    (hp : probeThrough tt board alpha beta alpha2 beta2 ub)
    (hterm : (oracle s).1 = true)
    (h42 : s.length = 42 →
      (∃ v, v ∈ (oracle s.dropLast).2.filterMap id) ∧
      (∀ v ∈ (oracle s.dropLast).2.filterMap id, v ≤ 1)) :
    ∃ tt2,
      TT.set tt (board : Int)
        (((if s.length = 42 then
            (if (1 : Int) ∈ (oracle s.dropLast).2.filterMap id then -1 else 0) else -1) + 1) +
         ((if s.length = 42 then
            (if (1 : Int) ∈ (oracle s.dropLast).2.filterMap id then -1 else 0) else -1) + 1) * 16)
        = .ok tt2 ∧
      search oracle (fuel + 1) tt s alpha beta =
        .ok ((if s.length = 42 then
            (if (1 : Int) ∈ (oracle s.dropLast).2.filterMap id then -1 else 0) else -1), tt2) := by
  obtain ⟨hbd0, hbd1⟩ := board49_int_le s board hb
  rw [search_probeThrough oracle fuel tt s alpha beta alpha2 beta2 ub board hb hp]
  simp only [searchAfterProbe, hterm, if_true]
  by_cases hlen : s.length = 42
  · obtain ⟨⟨v0, hv0⟩, hle⟩ := h42 hlen
    rcases hmax : ((oracle s.dropLast).2.filterMap id).max? with _ | m
    · have : (oracle s.dropLast).2.filterMap id = [] := by
        rcases hempty : (oracle s.dropLast).2.filterMap id with _ | ⟨y, ys⟩
        · rfl
        · exfalso
          rw [hempty] at hmax
          rcases hm2 : (y :: ys).max? with _ | m2
          · simp [List.max?] at hm2
          · rw [hm2] at hmax; cases hmax
      rw [this] at hv0
      cases hv0
    · obtain ⟨hmem, hmaxle⟩ := int_max?_iff.mp hmax
      have hval : (if m = 1 then (-1 : Int) else 0) =
          (if (1 : Int) ∈ (oracle s.dropLast).2.filterMap id then -1 else 0) := by
        by_cases hm1 : m = 1
        · rw [if_pos hm1, if_pos (hm1 ▸ hmem)]
        · rw [if_neg hm1, if_neg ?_]
          intro hmem1
          exact hm1 (le_antisymm (hle m hmem) (hmaxle 1 hmem1))
      simp only [if_pos hlen]
      rw [← hval]
      by_cases hm1 : m = 1
      · simp only [if_pos hm1]
        have hset := set_ok tt (board : Int) ((-1 + 1) + (-1 + 1) * 16) hbd0 hbd1
          (by decide) (by decide)
        rw [hset]
        exact ⟨_, rfl, rfl⟩
      · simp only [if_neg hm1]
        have hset := set_ok tt (board : Int) ((0 + 1) + (0 + 1) * 16) hbd0 hbd1
          (by decide) (by decide)
        rw [hset]
        exact ⟨_, rfl, rfl⟩
  · simp only [if_neg hlen]
    have hset := set_ok tt (board : Int) ((-1 + 1) + (-1 + 1) * 16) hbd0 hbd1
      (by decide) (by decide)
    rw [hset]
    exact ⟨_, rfl, rfl⟩

/-- A concrete oracle that reports every position terminal with no legal
children listed. -/
def oraAllTerm : List Nat → Bool × List (Option Int) :=
  fun _ => (true, [none, none, none, none, none, none, none])

/-- A concrete empty 4-slot table. -/
def tt4 : TT := ⟨4, [0, 0, 0, 0], 0⟩

/-- Witness for C3 at the empty move sequence on an empty table. -/
theorem C3_witness :
    (oraAllTerm []).1 = true ∧
    ∃ tt2,
      TT.set tt4 (((0 : Nat)) : Int)
        (((if ([] : List Nat).length = 42 then
            (if (1 : Int) ∈ (oraAllTerm ([] : List Nat).dropLast).2.filterMap id then -1 else 0)
           else -1) + 1) +
         ((if ([] : List Nat).length = 42 then
            (if (1 : Int) ∈ (oraAllTerm ([] : List Nat).dropLast).2.filterMap id then -1 else 0)
           else -1) + 1) * 16) = .ok tt2 ∧
      search oraAllTerm 1 tt4 [] (-1) 1 =
        .ok ((if ([] : List Nat).length = 42 then
            (if (1 : Int) ∈ (oraAllTerm ([] : List Nat).dropLast).2.filterMap id then -1 else 0)
           else -1), tt2) :=
  ⟨rfl, C3_terminal_handling oraAllTerm 0 tt4 [] (-1) 1 (-1) 1 1 0 (by decide)
    (Or.inl ⟨by decide, rfl, rfl, rfl⟩) rfl (fun h => absurd h (by decide))⟩

/-! ## C4: the beta-cutoff store -/

/-- C4: when the probe falls through to window `(alpha2, beta2)` with prior
upper bound `ub` (+1 on a miss), the oracle reports non-terminal, and the
beta-cutoff branch is taken (`beta2 ≤ v` for `v` the maximum defined child
value), then any successful return of `search` returns `v` and its final
table is the result of storing the packed record `(v+1) + 16*(ub+1)` —
lower bound `v` with the prior upper bound — under the position's key. -/
theorem C4_beta_cutoff_store (oracle : List Nat → Bool × List (Option Int))
    (fuel : Nat) (tt : TT) (s : List Nat) (alpha beta alpha2 beta2 ub : Int)
    (board : Nat) (v rv : Int) (ttf : TT)
    (hb : moveseq_to_board49 s 7 6 = some board)
    (hp : probeThrough tt board alpha beta alpha2 beta2 ub)
    (hnt : (oracle s).1 = false)
    (hv : ((oracle s).2.filterMap id).max? = some v)
    (hcut : beta2 ≤ v)
    (hrun : search oracle (fuel + 1) tt s alpha beta = .ok (rv, ttf)) :
    rv = v ∧ ∃ tt1, TT.set tt1 (board : Int) ((v + 1) + (ub + 1) * 16) = .ok ttf := by
  rw [search_probeThrough oracle fuel tt s alpha beta alpha2 beta2 ub board hb hp] at hrun
  simp only [searchAfterProbe, hnt, Bool.false_eq_true, if_false] at hrun
  rw [hv] at hrun
  simp only [if_pos hcut] at hrun
  rcases hfind : MOVE_ORDERING.find? (fun m => (oracle s).2.getD m none == some v)
    with _ | mv
  · simp only [hfind] at hrun
    rcases hset : TT.set tt (board : Int) ((v + 1) + (ub + 1) * 16) with e | tt2
    · simp only [hset] at hrun
      exact Except.noConfusion hrun
    · simp only [hset, Except.ok.injEq, Prod.mk.injEq] at hrun
      exact ⟨hrun.1.symm, tt, by rw [hset, hrun.2]⟩
  · simp only [hfind] at hrun
    rcases hchild : search oracle fuel tt (s ++ [mv]) (-beta2) (-alpha2) with e | ⟨r, tt1⟩
    · simp only [hchild] at hrun
      exact Except.noConfusion hrun
    · simp only [hchild] at hrun
      by_cases hcv : -r = v
      · rw [if_pos hcv] at hrun
        by_cases hcv2 : beta2 ≤ -r
        · rw [if_pos hcv2] at hrun
          rcases hset : TT.set tt1 (board : Int) ((v + 1) + (ub + 1) * 16) with e2 | tt2
          · simp only [hset] at hrun
            exact Except.noConfusion hrun
          · simp only [hset, Except.ok.injEq, Prod.mk.injEq] at hrun
            exact ⟨hrun.1.symm, tt1, by rw [hset, hrun.2]⟩
        · rw [if_neg hcv2] at hrun
          exact Except.noConfusion hrun
      · rw [if_neg hcv] at hrun
        exact Except.noConfusion hrun

/-- A concrete oracle: the root has one winning child in column 3; every
other position is terminal. -/
def oracleWin3 : List Nat → Bool × List (Option Int) :=
  fun s =>
    if s = [] then (false, [none, none, none, some 1, none, none, none])
    else (true, [none, none, none, none, none, none, none])

/-- A concrete empty 8-slot table. -/
def tt8 : TT := ⟨8, [0, 0, 0, 0, 0, 0, 0, 0], 0⟩

/-- Witness for C4: a concrete beta-cutoff run from the empty table (probe
miss, so the stored upper bound is +1: packed value 34). -/
theorem C4_witness :
    ((oracleWin3 []).2.filterMap id).max? = some 1 ∧
    search oracleWin3 2 tt8 [] (-1) 1 =
      .ok (1, ⟨8, [0, 38280596832649217, 0, 0, 0, 0, 2097153, 0], 2⟩) ∧
    (1 = (1 : Int) ∧ ∃ tt1, TT.set tt1 (((0 : Nat)) : Int) ((1 + 1) + (1 + 1) * 16) =
      .ok ⟨8, [0, 38280596832649217, 0, 0, 0, 0, 2097153, 0], 2⟩) :=
  ⟨by decide, by decide,
    C4_beta_cutoff_store oracleWin3 1 tt8 [] (-1) 1 (-1) 1 1 0 1 1
      ⟨8, [0, 38280596832649217, 0, 0, 0, 0, 2097153, 0], 2⟩
      (by decide) (Or.inl ⟨by decide, rfl, rfl, rfl⟩) (by decide) (by decide)
      (by decide) (by decide)⟩

/-! ## C5: the packed-bound invariant -/

/-- Unpacking a packed bound record over the integers. -/
theorem packed_unpack (x y : Int) (h0 : 0 ≤ x + 1) (h1 : x + 1 < 16) :
    ((x + 1) + (y + 1) * 16) % 16 - 1 = x ∧ ((x + 1) + (y + 1) * 16) / 16 - 1 = y := by
  constructor
  · rw [Int.add_mul_emod_self, Int.emod_eq_of_lt h0 h1]; ring
  · rw [Int.add_mul_ediv_right _ _ (by norm_num : (16 : Int) ≠ 0),
      Int.ediv_eq_zero_of_lt h0 h1]; ring

/-- The table state holding board49 0 with packed value 16 (lb = −1,
ub = 0) and board49 `2^21` with packed value 0 (lb = ub = −1), as reached
from the empty 8-slot table by two `set` calls. -/
def ttC5 : TT := ⟨8, [0, 18014398509481985, 0, 0, 0, 0, 2097153, 0], 2⟩

/-- C5: counterexample.  Starting from a table (reachable by plain `set`
calls) whose record for the root says ub = 0 while the oracle gives the
root a child of value +1, the beta-cutoff branch runs to completion (all
asserts pass) and stores packed value 18 — which unpacks to lb = +1,
ub = 0, violating lb ≤ ub.  So not every value stored by `search` satisfies
−1 ≤ lb ≤ ub ≤ +1. -/
theorem C5_counterexample :
    TT.set tt8 0 16 = .ok ⟨8, [0, 18014398509481985, 0, 0, 0, 0, 0, 0], 1⟩ ∧
    TT.set ⟨8, [0, 18014398509481985, 0, 0, 0, 0, 0, 0], 1⟩ 2097152 0 = .ok ttC5 ∧
    TT.get ttC5 0 = .ok (some 16) ∧
    search oracleWin3 2 ttC5 [] (-1) 1 =
      .ok (1, ⟨8, [0, 20266198323167233, 0, 0, 0, 0, 2097153, 0], 2⟩) ∧
    TT.get ⟨8, [0, 20266198323167233, 0, 0, 0, 0, 2097153, 0], 2⟩ 0 = .ok (some 18) ∧
    ((18 % 16 : Nat) : Int) - 1 = 1 ∧ ((18 / 16 : Nat) : Int) - 1 = 0 ∧
    ¬(((18 % 16 : Nat) : Int) - 1 ≤ ((18 / 16 : Nat) : Int) - 1) := by decide

/-- C5 as amended: the records stored by the terminal and PV-exact branches
always unpack to −1 ≤ lb = ub ≤ +1; the beta-cutoff branch stores lb = v
and ub = ub_prior, so its record satisfies the invariant whenever the
oracle child values lie in {−1,0,+1} and v ≤ ub_prior ≤ +1 (in particular
whenever the probe missed, where ub_prior = +1), but a prior TT upper bound
that contradicts the oracle can make lb exceed ub. -/
theorem C5_amended_packed_bounds (oracle : List Nat → Bool × List (Option Int))
    (fuel : Nat) (tt : TT) (s : List Nat) (alpha beta alpha2 beta2 ub : Int)
    (board : Nat) (rv : Int) (ttf : TT)
    (hb : moveseq_to_board49 s 7 6 = some board)
    (hp : probeThrough tt board alpha beta alpha2 beta2 ub)
    (hub : ub ≤ 1)
    (hor : ∀ v2 ∈ (oracle s).2.filterMap id, -1 ≤ v2 ∧ v2 ≤ 1)
    (hvub : ∀ v2, ((oracle s).2.filterMap id).max? = some v2 → beta2 ≤ v2 → v2 ≤ ub)
    (hrun : search oracle (fuel + 1) tt s alpha beta = .ok (rv, ttf)) :
    ∃ tt1 w, TT.set tt1 (board : Int) w = .ok ttf ∧
      (-1 : Int) ≤ w % 16 - 1 ∧ w % 16 - 1 ≤ w / 16 - 1 ∧ w / 16 - 1 ≤ 1 := by
  rw [search_probeThrough oracle fuel tt s alpha beta alpha2 beta2 ub board hb hp] at hrun
  simp only [searchAfterProbe] at hrun
  by_cases hq : (oracle s).1 = true
  · simp only [hq, if_true] at hrun
    by_cases hlen : s.length = 42
    · simp only [if_pos hlen] at hrun
      rcases hpm : ((oracle s.dropLast).2.filterMap id).max? with _ | m
      · rw [hpm] at hrun
        exact Except.noConfusion hrun
      · rw [hpm] at hrun
        by_cases hm1 : m = 1
        · simp only [if_pos hm1] at hrun
          rcases hset : TT.set tt (board : Int) ((-1 + 1) + (-1 + 1) * 16) with e | tt2
          · simp only [hset] at hrun
            exact Except.noConfusion hrun
          · simp only [hset, Except.ok.injEq, Prod.mk.injEq] at hrun
            exact ⟨tt, _, by rw [hset, hrun.2], by decide, by decide, by decide⟩
        · simp only [if_neg hm1] at hrun
          rcases hset : TT.set tt (board : Int) ((0 + 1) + (0 + 1) * 16) with e | tt2
          · simp only [hset] at hrun
            exact Except.noConfusion hrun
          · simp only [hset, Except.ok.injEq, Prod.mk.injEq] at hrun
            exact ⟨tt, _, by rw [hset, hrun.2], by decide, by decide, by decide⟩
    · simp only [if_neg hlen] at hrun
      rcases hset : TT.set tt (board : Int) ((-1 + 1) + (-1 + 1) * 16) with e | tt2
      · simp only [hset] at hrun
        exact Except.noConfusion hrun
      · simp only [hset, Except.ok.injEq, Prod.mk.injEq] at hrun
        exact ⟨tt, _, by rw [hset, hrun.2], by decide, by decide, by decide⟩
  · have hq2 : (oracle s).1 = false := by
      rcases hb2 : (oracle s).1
      · rfl
      · exact absurd hb2 hq
    simp only [hq2, Bool.false_eq_true, if_false] at hrun
    rcases hmax : ((oracle s).2.filterMap id).max? with _ | v
    · rw [hmax] at hrun
      exact Except.noConfusion hrun
    · rw [hmax] at hrun
      obtain ⟨hvm, _⟩ := int_max?_iff.mp hmax
      obtain ⟨hv1, hv2⟩ := hor v hvm
      have hpacked := packed_unpack v ub (by omega) (by omega)
      have hpackedv := packed_unpack v v (by omega) (by omega)
      by_cases hcut : beta2 ≤ v
      · simp only [if_pos hcut] at hrun
        have hvu : v ≤ ub := hvub v hmax hcut
        rcases hfind : MOVE_ORDERING.find? (fun m => (oracle s).2.getD m none == some v)
          with _ | mv
        · simp only [hfind] at hrun
          rcases hset : TT.set tt (board : Int) ((v + 1) + (ub + 1) * 16) with e | tt2
          · simp only [hset] at hrun
            exact Except.noConfusion hrun
          · simp only [hset, Except.ok.injEq, Prod.mk.injEq] at hrun
            exact ⟨tt, _, by rw [hset, hrun.2], by rw [hpacked.1]; omega,
              by rw [hpacked.1, hpacked.2]; omega, by rw [hpacked.2]; omega⟩
        · simp only [hfind] at hrun
          rcases hchild : search oracle fuel tt (s ++ [mv]) (-beta2) (-alpha2)
            with e | ⟨r, tt1⟩
          · simp only [hchild] at hrun
            exact Except.noConfusion hrun
          · simp only [hchild] at hrun
            by_cases hcv : -r = v
            · rw [if_pos hcv] at hrun
              by_cases hcv2 : beta2 ≤ -r
              · rw [if_pos hcv2] at hrun
                rcases hset : TT.set tt1 (board : Int) ((v + 1) + (ub + 1) * 16)
                  with e2 | tt2
                · simp only [hset] at hrun
                  exact Except.noConfusion hrun
                · simp only [hset, Except.ok.injEq, Prod.mk.injEq] at hrun
                  exact ⟨tt1, _, by rw [hset, hrun.2], by rw [hpacked.1]; omega,
                    by rw [hpacked.1, hpacked.2]; omega, by rw [hpacked.2]; omega⟩
              · rw [if_neg hcv2] at hrun
                exact Except.noConfusion hrun
            · rw [if_neg hcv] at hrun
              exact Except.noConfusion hrun
      · simp only [if_neg hcut] at hrun
        rcases hfind : MOVE_ORDERING.find? (fun m => (oracle s).2.getD m none == some v)
          with _ | fm
        · simp only [hfind] at hrun
          exact Except.noConfusion hrun
        · simp only [hfind] at hrun
          rcases hchild : search oracle fuel tt (s ++ [fm]) (-alpha2 - 1) (-alpha2)
            with e | ⟨r, tt1⟩
          · simp only [hchild] at hrun
            exact Except.noConfusion hrun
          · simp only [hchild] at hrun
            by_cases hcv : -r = v
            · rw [if_pos hcv] at hrun
              by_cases hcv2 : -r < beta2
              · rw [if_pos hcv2] at hrun
                rcases hsib : siblingsLoop (search oracle fuel) s (max alpha2 v) beta2
                    (oracle s).2 fm MOVE_ORDERING tt1 with e2 | tt2
                · simp only [hsib] at hrun
                  exact Except.noConfusion hrun
                · simp only [hsib] at hrun
                  rcases hset : TT.set tt2 (board : Int) ((v + 1) + (v + 1) * 16)
                    with e3 | tt3
                  · simp only [hset] at hrun
                    exact Except.noConfusion hrun
                  · simp only [hset, Except.ok.injEq, Prod.mk.injEq] at hrun
                    exact ⟨tt2, _, by rw [hset, hrun.2], by rw [hpackedv.1]; omega,
                      by rw [hpackedv.1, hpackedv.2], by rw [hpackedv.2]; omega⟩
              · rw [if_neg hcv2] at hrun
                exact Except.noConfusion hrun
            · rw [if_neg hcv] at hrun
              exact Except.noConfusion hrun

/-- Witness for the amended C5 theorem: a beta-cutoff run from the empty
table (probe miss, ub_prior = +1) stores packed value 34, i.e.
lb = ub = +1... the stored word satisfies the invariant. -/
theorem C5_amended_witness :
    (1 : Int) ≤ 1 ∧
    ∃ tt1 w, TT.set tt1 (((0 : Nat)) : Int) w =
        .ok (⟨8, [0, 38280596832649217, 0, 0, 0, 0, 2097153, 0], 2⟩ : TT) ∧
      (-1 : Int) ≤ w % 16 - 1 ∧ w % 16 - 1 ≤ w / 16 - 1 ∧ w / 16 - 1 ≤ 1 :=
  ⟨by decide, C5_amended_packed_bounds oracleWin3 1 tt8 [] (-1) 1 (-1) 1 1 0 1
      ⟨8, [0, 38280596832649217, 0, 0, 0, 0, 2097153, 0], 2⟩
      (by decide) (Or.inl ⟨by decide, rfl, rfl, rfl⟩) (by decide)
      (by decide)
      (fun v2 hm hb2 => by
        have h1 : ((oracleWin3 []).2.filterMap id).max? = some 1 := by decide
        rw [h1] at hm
        injection hm with h2
        omega)
      (by decide)⟩

/-! ## C10: bounded recursion depth -/

/-- Every move of a sequence accepted by the encoding loop is a column
index below 7. -/
theorem enc_loop_mem :
    ∀ (s : List Nat) (ply : Nat) (hs ps hs2 ps2 : Nat → Nat),
      moveseq_to_board49_loop 7 6 s ply hs ps = some (hs2, ps2) →
      ∀ x ∈ s, x < 7 := by
  intro s
  induction s with
  | nil => intro ply hs ps hs2 ps2 _ x hx; cases hx
  | cons col rest ih =>
    intro ply hs ps hs2 ps2 h x hx
    simp only [moveseq_to_board49_loop] at h
    by_cases g1 : 10 ≤ col
    · rw [if_pos g1] at h; simp at h
    rw [if_neg g1] at h
    by_cases g2 : 7 ≤ col
    · rw [if_pos g2] at h; simp at h
    rw [if_neg g2] at h
    by_cases g3 : 6 ≤ hs col
    · rw [if_pos g3] at h; simp at h
    rw [if_neg g3] at h
    rcases List.mem_cons.mp hx with rfl | hx2
    · omega
    · exact ih _ _ _ _ _ h x hx2

/-- The length of a list of column indices below 7 is the sum of its
per-column counts. -/
theorem length_eq_sum_counts :
    ∀ (s : List Nat), (∀ x ∈ s, x < 7) →
      s.length = ∑ c ∈ Finset.range 7, s.count c := by
  intro s
  induction s with
  | nil => intro _; simp
  | cons x rest ih =>
    intro h
    have hx : x < 7 := h x (by simp)
    have hrest := ih (fun y hy => h y (by simp [hy]))
    simp only [List.length_cons, List.count_cons]
    rw [Finset.sum_add_distrib, ← hrest]
    have : (∑ c ∈ Finset.range 7, if (x == c) = true then 1 else 0) = 1 := by
      rw [Finset.sum_congr rfl (fun c _ => by
        show (if (x == c) = true then 1 else 0) = if x = c then 1 else 0
        simp)]
      rw [Finset.sum_ite_eq (Finset.range 7) x (fun _ => 1)]
      rw [if_pos (Finset.mem_range.mpr hx)]
    omega

/-- A legal move sequence has at most 42 moves. -/
theorem legal_length_le (s : List Nat) (b : Nat)
    (hb : moveseq_to_board49 s 7 6 = some b) : s.length ≤ 42 := by
  obtain ⟨hs2, ps2, hloop, hh, _, _⟩ := moveseq_to_board49_eq s b hb
  have hmem := enc_loop_mem s 0 _ _ hs2 ps2 hloop
  have hcnt : ∀ c, s.count c = hs2 c := by
    intro c
    have := enc_loop_heights s 0 _ _ hs2 ps2 hloop c
    omega
  rw [length_eq_sum_counts s hmem]
  calc (∑ c ∈ Finset.range 7, s.count c) ≤ ∑ c ∈ Finset.range 7, 6 :=
        Finset.sum_le_sum (fun c _ => by rw [hcnt c]; exact hh c)
    _ = 42 := by simp

/-- Appending a playable move to a legal sequence keeps it legal. -/
theorem legal_snoc (s : List Nat) (b : Nat) (m : Nat)
    (hb : moveseq_to_board49 s 7 6 = some b)
    (hm : m < 7) (hcnt : s.count m < 6) :
    ∃ b2, moveseq_to_board49 (s ++ [m]) 7 6 = some b2 := by
  obtain ⟨hs2, ps2, hloop, _, _, _⟩ := moveseq_to_board49_eq s b hb
  have hh : hs2 m = s.count m := by
    have := enc_loop_heights s 0 _ _ hs2 ps2 hloop m
    omega
  rw [moveseq_to_board49, if_neg (by simp)]
  rw [enc_loop_append s [m] 0 _ _, hloop]
  simp only [Option.bind, moveseq_to_board49_loop]
  rw [if_neg (show ¬ 10 ≤ m by omega), if_neg (show ¬ 7 ≤ m by omega),
    if_neg (show ¬ 6 ≤ hs2 m by omega)]
  exact ⟨_, rfl⟩

/-- `set` raises only range errors. -/
theorem set_error_kind (t : TT) (k v : Int) (e : Err) (h : TT.set t k v = .error e) :
    e = .keyRange ∨ e = .valRange := by
  rw [TT.set] at h
  by_cases h1 : k < 0 ∨ (KEY_MAX : Int) < k
  · rw [if_pos h1] at h; injection h with h2; exact Or.inl h2.symm
  rw [if_neg h1] at h
  by_cases h2 : v < 0 ∨ (((1 <<< 14 : Nat) : Int)) ≤ v
  · rw [if_pos h2] at h; injection h with h3; exact Or.inr h3.symm
  rw [if_neg h2] at h; cases h

/-- `get` raises only the key-range error. -/
theorem get_error_kind (t : TT) (k : Int) (e : Err) (h : TT.get t k = .error e) :
    e = .keyRange := by
  rw [TT.get] at h
  by_cases h1 : k < 0 ∨ (KEY_MAX : Int) < k
  · rw [if_pos h1] at h; injection h with h2; exact h2.symm
  · rw [if_neg h1] at h; cases h

/-- Well-formed oracle responses: on every legal position any column
reported with a non-absent value carries a WDL value and is playable
(fewer than 6 stones in that column). -/
def WFOracle (oracle : List Nat → Bool × List (Option Int)) : Prop :=
  ∀ s, (moveseq_to_board49 s 7 6).isSome →
    ∀ c v, (oracle s).2.getD c none = some v →
      (v = -1 ∨ v = 0 ∨ v = 1) ∧ s.count c < 6

/-- The sibling loop never exhausts the fuel itself: only a child call
could, and by hypothesis none does. -/
theorem siblingsLoop_no_fuelOut
    (searchFn : TT → List Nat → Int → Int → Except Err (Int × TT))
    (moveseq : List Nat) (alpha beta : Int) (wdl : List (Option Int)) (first_move : Nat)
    (h : ∀ m ∈ MOVE_ORDERING, wdl.getD m none ≠ none →
      ∀ tt2 a b, searchFn tt2 (moveseq ++ [m]) a b ≠ .error .fuelOut) :
    ∀ (L : List Nat), (∀ m ∈ L, m ∈ MOVE_ORDERING) →
      ∀ tt, siblingsLoop searchFn moveseq alpha beta wdl first_move L tt ≠
        .error .fuelOut := by
  intro L
  induction L with
  | nil => intro _ tt heq; exact Except.noConfusion heq
  | cons m rest ih =>
    intro hmem tt
    have hmMO : m ∈ MOVE_ORDERING := hmem m (by simp)
    have hrest : ∀ x ∈ rest, x ∈ MOVE_ORDERING := fun x hx => hmem x (by simp [hx])
    simp only [siblingsLoop]
    by_cases h1 : m = first_move
    · rw [if_pos h1]; exact ih hrest tt
    · rw [if_neg h1]
      rcases hw : wdl.getD m none with _ | v
      · exact ih hrest tt
      · rcases hc : searchFn tt (moveseq ++ [m]) (-beta) (-alpha) with e | p
        · simp only [hc]
          intro heq
          injection heq with h2
          subst h2
          exact h m hmMO (by rw [hw]; exact fun hcon => Option.noConfusion hcon) tt
            (-beta) (-alpha) hc
        · obtain ⟨r, tt1⟩ := p
          simp only [hc]
          by_cases h2 : -r ≤ alpha
          · rw [if_pos h2]; exact ih hrest tt1
          · rw [if_neg h2]; intro heq; injection heq with h3; cases h3

/-- `searchAfterProbe` never exhausts the fuel itself: only a child call
could, and by hypothesis none does. -/
theorem searchAfterProbe_no_fuelOut (oracle : List Nat → Bool × List (Option Int))
    (searchFn : TT → List Nat → Int → Int → Except Err (Int × TT))
    (tt : TT) (moveseq : List Nat) (board : Nat) (alpha beta ub : Int)
    (h : ∀ m ∈ MOVE_ORDERING, (oracle moveseq).2.getD m none ≠ none →
      ∀ tt2 a b, searchFn tt2 (moveseq ++ [m]) a b ≠ .error .fuelOut) :
    searchAfterProbe oracle searchFn tt moveseq board alpha beta ub ≠
      .error .fuelOut := by
  simp only [searchAfterProbe]
  by_cases hq : (oracle moveseq).1 = true
  · simp only [hq, if_true]
    have hsetcase : ∀ (w : Int) (t0 : TT),
        (match TT.set t0 (board : Int) w with
          | Except.error e => Except.error e
          | Except.ok tt1 => Except.ok ((w / 16 - 1 : Int), tt1)) ≠
          (Except.error Err.fuelOut : Except Err (Int × TT)) := by
      intro w t0
      rcases hset : TT.set t0 (board : Int) w with e | tt1
      · simp only [hset]
        intro heq
        injection heq with h2
        subst h2
        rcases set_error_kind t0 (board : Int) w _ hset with h3 | h3 <;> cases h3
      · simp only [hset]
        intro heq
        exact Except.noConfusion heq
    by_cases hlen : moveseq.length = 42
    · simp only [if_pos hlen]
      rcases hpm : ((oracle moveseq.dropLast).2.filterMap id).max? with _ | mm
      · intro heq; injection heq with h2; cases h2
      · rcases hset : TT.set tt (board : Int)
            (((if mm = 1 then (-1 : Int) else 0) + 1) +
             ((if mm = 1 then (-1 : Int) else 0) + 1) * 16) with e | tt1
        · simp only [hset]
          intro heq
          injection heq with h2
          subst h2
          rcases set_error_kind tt (board : Int) _ _ hset with h3 | h3 <;> cases h3
        · simp only [hset]
          intro heq
          exact Except.noConfusion heq
    · simp only [if_neg hlen]
      rcases hset : TT.set tt (board : Int) ((-1 + 1) + (-1 + 1) * 16) with e | tt1
      · simp only [hset]
        intro heq
        injection heq with h2
        subst h2
        rcases set_error_kind tt (board : Int) _ _ hset with h3 | h3 <;> cases h3
      · simp only [hset]
        intro heq
        exact Except.noConfusion heq
  · have hq2 : (oracle moveseq).1 = false := by
      rcases hb2 : (oracle moveseq).1
      · rfl
      · exact absurd hb2 hq
    simp only [hq2, Bool.false_eq_true, if_false]
    rcases hmax : ((oracle moveseq).2.filterMap id).max? with _ | v
    · intro heq; injection heq with h2; cases h2
    · by_cases hcut : beta ≤ v
      · simp only [if_pos hcut]
        rcases hfind : MOVE_ORDERING.find?
            (fun m => (oracle moveseq).2.getD m none == some v) with _ | mv
        · simp only [hfind]
          rcases hset : TT.set tt (board : Int) ((v + 1) + (ub + 1) * 16) with e | tt1
          · simp only [hset]
            intro heq
            injection heq with h2
            subst h2
            rcases set_error_kind tt (board : Int) _ _ hset with h3 | h3 <;> cases h3
          · simp only [hset]
            intro heq
            exact Except.noConfusion heq
        · simp only [hfind]
          have hmv : mv ∈ MOVE_ORDERING := List.mem_of_find?_eq_some hfind
          have hmvw : (oracle moveseq).2.getD mv none = some v := by
            have hpred := List.find?_some hfind
            simpa using hpred
          rcases hc : searchFn tt (moveseq ++ [mv]) (-beta) (-alpha) with e | p
          · simp only [hc]
            intro heq
            injection heq with h2
            subst h2
            exact h mv hmv (by rw [hmvw]; exact fun hcon => Option.noConfusion hcon) tt
              (-beta) (-alpha) hc
          · obtain ⟨r, tt1⟩ := p
            simp only [hc]
            by_cases h2 : -r = v
            · rw [if_pos h2]
              by_cases h3 : beta ≤ -r
              · rw [if_pos h3]
                rcases hset : TT.set tt1 (board : Int) ((v + 1) + (ub + 1) * 16)
                  with e | tt2
                · simp only [hset]
                  intro heq
                  injection heq with h4
                  subst h4
                  rcases set_error_kind tt1 (board : Int) _ _ hset with h5 | h5 <;> cases h5
                · simp only [hset]
                  intro heq
                  exact Except.noConfusion heq
              · rw [if_neg h3]; intro heq; injection heq with h4; cases h4
            · rw [if_neg h2]; intro heq; injection heq with h4; cases h4
      · simp only [if_neg hcut]
        rcases hfind : MOVE_ORDERING.find?
            (fun m => (oracle moveseq).2.getD m none == some v) with _ | fm
        · simp only [hfind]
          intro heq; injection heq with h2; cases h2
        · simp only [hfind]
          have hfm : fm ∈ MOVE_ORDERING := List.mem_of_find?_eq_some hfind
          have hfmw : (oracle moveseq).2.getD fm none = some v := by
            have hpred := List.find?_some hfind
            simpa using hpred
          rcases hc : searchFn tt (moveseq ++ [fm]) (-alpha - 1) (-alpha) with e | p
          · simp only [hc]
            intro heq
            injection heq with h2
            subst h2
            exact h fm hfm (by rw [hfmw]; exact fun hcon => Option.noConfusion hcon) tt
              (-alpha - 1) (-alpha) hc
          · obtain ⟨r, tt1⟩ := p
            simp only [hc]
            by_cases h2 : -r = v
            · rw [if_pos h2]
              by_cases h3 : -r < beta
              · rw [if_pos h3]
                rcases hsib : siblingsLoop searchFn moveseq (max alpha v) beta
                    (oracle moveseq).2 fm MOVE_ORDERING tt1 with e | tt2
                · simp only [hsib]
                  intro heq
                  injection heq with h4
                  subst h4
                  exact siblingsLoop_no_fuelOut searchFn moveseq (max alpha v) beta
                    (oracle moveseq).2 fm h MOVE_ORDERING (fun x hx => hx) tt1 hsib
                · simp only [hsib]
                  rcases hset : TT.set tt2 (board : Int) ((v + 1) + (v + 1) * 16)
                    with e | tt3
                  · simp only [hset]
                    intro heq
                    injection heq with h4
                    subst h4
                    rcases set_error_kind tt2 (board : Int) _ _ hset with h5 | h5 <;> cases h5
                  · simp only [hset]
                    intro heq
                    exact Except.noConfusion heq
              · rw [if_neg h3]; intro heq; injection heq with h4; cases h4
            · rw [if_neg h2]; intro heq; injection heq with h4; cases h4

/-- C10: with the oracle a total function returning well-formed responses,
`search` on a legal move sequence never exhausts a fuel of `43 - length`
(or more): every recursive call appends one playable column digit, and
since `moveseq_to_board49` rejects a seventh stone in any column no
sequence exceeds 42 plies, so the recursion depth is bounded by 42. -/
theorem C10_search_depth_bounded (oracle : List Nat → Bool × List (Option Int))
    (hwf : WFOracle oracle) :
    ∀ (fuel : Nat) (s : List Nat) (b : Nat), moveseq_to_board49 s 7 6 = some b →
      43 ≤ s.length + fuel →
      ∀ (tt : TT) (alpha beta : Int),
        search oracle fuel tt s alpha beta ≠ .error .fuelOut := by
  intro fuel
  induction fuel with
  | zero =>
    intro s b hb hlen tt alpha beta
    have := legal_length_le s b hb
    omega
  | succ fuel ih =>
    intro s b hb hlen tt alpha beta
    have hchild : ∀ m ∈ MOVE_ORDERING, (oracle s).2.getD m none ≠ none →
        ∀ tt2 a b2, search oracle fuel tt2 (s ++ [m]) a b2 ≠ .error .fuelOut := by
      intro m hm hsome tt2 a b2
      have hm7 : m < 7 := by
        simp [MOVE_ORDERING] at hm
        omega
      rcases ho : (oracle s).2.getD m none with _ | v
      · exact absurd ho hsome
      · have hwfs := hwf s (by rw [hb]; rfl) m v ho
        obtain ⟨b2c, hleg2⟩ := legal_snoc s b m hb hm7 hwfs.2
        refine ih (s ++ [m]) b2c hleg2 ?_ tt2 a b2
        rw [List.length_append]
        simp only [List.length_cons, List.length_nil]
        omega
    simp only [search, hb]
    rcases hget : TT.get tt (b : Int) with e | r
    · simp only [hget]
      intro heq
      injection heq with h2
      subst h2
      have := get_error_kind tt (b : Int) _ hget
      cases this
    · rcases r with _ | tv
      · simp only [hget]
        exact searchAfterProbe_no_fuelOut oracle (search oracle fuel) tt s b
          alpha beta 1 hchild
      · simp only [hget]
        by_cases h1 : beta ≤ ((tv % 16 : Nat) : Int) - 1
        · rw [if_pos h1]
          intro heq
          exact Except.noConfusion heq
        · rw [if_neg h1]
          by_cases h2 : ((tv / 16 : Nat) : Int) - 1 ≤ alpha
          · rw [if_pos h2]
            intro heq
            exact Except.noConfusion heq
          · rw [if_neg h2]
            exact searchAfterProbe_no_fuelOut oracle (search oracle fuel) tt s b
              (max alpha (((tv % 16 : Nat) : Int) - 1))
              (min beta (((tv / 16 : Nat) : Int) - 1))
              (((tv / 16 : Nat) : Int) - 1) hchild

/-- Witness for C10 with the all-terminal oracle at the root position and
fuel 43. -/
theorem C10_witness :
    WFOracle oraAllTerm ∧
    search oraAllTerm 43 tt4 [] (-1) 1 ≠ .error .fuelOut :=
  have hwf : WFOracle oraAllTerm := by
    intro s _ c v hcv
    exfalso
    have : ([none, none, none, none, none, none, none] : List (Option Int)).getD c none
        = none := by
      rcases c with _ | _ | _ | _ | _ | _ | _ | c <;> rfl
    rw [oraAllTerm] at hcv
    rw [this] at hcv
    exact Option.noConfusion hcv
  ⟨hwf, C10_search_depth_bounded oraAllTerm hwf 43 [] 0 (by decide) (by decide)
    tt4 (-1) 1⟩

/-! ## Modular distance arithmetic -/

theorem home_lt (cap kp : Nat) (hcap : 0 < cap) : TT.home cap kp < cap :=
  Nat.mod_lt _ hcap

theorem TT.dist_self (cap i : Nat) : TT.dist cap i i = 0 := by
  unfold TT.dist
  rw [if_pos (le_refl i)]
  omega

theorem TT.dist_lt (cap i hm : Nat) (hi : i < cap) (hh : hm < cap) :
    TT.dist cap i hm < cap := by
  unfold TT.dist
  split <;> omega

theorem TT.dist_next (cap i hm : Nat) (hi : i < cap) (hh : hm < cap)
    (h : TT.dist cap i hm + 1 < cap) :
    TT.dist cap (nextIdx cap i) hm = TT.dist cap i hm + 1 := by
  by_cases hn : i + 1 = cap
  · simp only [nextIdx, if_pos hn]
    unfold TT.dist at h ⊢
    split at h <;> split <;> omega
  · simp only [nextIdx, if_neg hn]
    unfold TT.dist at h ⊢
    split at h <;> split <;> omega

theorem TT.dist_inj (cap i j hm : Nat) (hi : i < cap) (hj : j < cap)
    (hh : hm < cap) (h : TT.dist cap i hm = TT.dist cap j hm) : i = j := by
  unfold TT.dist at h
  split at h <;> split at h <;> omega

/-- The `set` loop preserves the length of the slot array. -/
theorem setLoop_length (cap kp : Nat) :
    ∀ fuel entry slots size i dib,
      (setLoop cap kp fuel entry slots size i dib).1.length = slots.length := by
  intro fuel
  induction fuel with
  | zero => intro entry slots size i dib; rfl
  | succ fuel ih =>
    intro entry slots size i dib
    simp only [setLoop]
    by_cases h1 : cap ≤ dib
    · rw [if_pos h1]
    rw [if_neg h1]
    by_cases h2 : slots.getD i 0 = 0
    · rw [if_pos h2, List.length_set]
    rw [if_neg h2]
    by_cases h3 : slots.getD i 0 &&& KEY_MASK = kp
    · rw [if_pos h3, List.length_set]
    rw [if_neg h3]
    by_cases h4 : TT.dist cap i (TT.home cap (slots.getD i 0 &&& KEY_MASK)) < dib
    · rw [if_pos h4, ih, List.length_set]
    · rw [if_neg h4, ih]

/-! ## C8: the Robin-Hood ordering invariant -/

/-- The Robin-Hood ordering invariant on a slot array: for every occupied
slot `i`, every slot on the wrap-aware path from the home of the incumbent
key at `i` up to `i` (all `j` whose modular displacement from that home is
at most `i`'s) is occupied. -/
def RHInvS (cap : Nat) (slots : List Nat) : Prop :=
  ∀ i, i < cap → slots.getD i 0 ≠ 0 →
    ∀ j, j < cap →
      TT.dist cap j (TT.home cap (slots.getD i 0 &&& KEY_MASK)) ≤
        TT.dist cap i (TT.home cap (slots.getD i 0 &&& KEY_MASK)) →
      slots.getD j 0 ≠ 0

/-- Writing a nonzero entry whose own home path up to the written slot is
occupied preserves the Robin-Hood ordering invariant. -/
theorem RHInvS_write (cap : Nat) (slots : List Nat) (i entry : Nat)
    (hlen : slots.length = cap)
    (hinv : RHInvS cap slots) (hi : i < cap) (hent : entry ≠ 0)
    (hpath : ∀ j, j < cap →
      TT.dist cap j (TT.home cap (entry &&& KEY_MASK)) ≤
        TT.dist cap i (TT.home cap (entry &&& KEY_MASK)) →
      j = i ∨ slots.getD j 0 ≠ 0) :
    RHInvS cap (slots.set i entry) := by
  intro i2 hi2 hocc2 j hj hdist
  have hkeep : ∀ j2, j2 = i ∨ slots.getD j2 0 ≠ 0 → (slots.set i entry).getD j2 0 ≠ 0 := by
    intro j2 hj2
    rcases hj2 with rfl | hj2
    · rw [getD_set_self slots j2 entry (by omega)]
      exact hent
    · rcases getD_set_cases slots i j2 entry with hcase | hcase
      · rw [hcase]; exact hent
      · rw [hcase]; exact hj2
  by_cases hii : i2 = i
  · subst hii
    rw [getD_set_self slots i2 entry (by omega)] at hocc2 hdist
    exact hkeep j (hpath j hj hdist)
  · rw [getD_set_ne slots i i2 entry (fun hcon => hii hcon.symm)] at hocc2 hdist
    exact hkeep j (Or.inr (hinv i2 hi2 hocc2 j hj hdist))

/-- The `set` loop preserves the Robin-Hood ordering invariant.  The final
hypothesis is the loop invariant: either the guard is about to stop the
loop, or `dib` is the carried entry's true displacement at `i` and the
entry's home path below `dib` is fully occupied. -/
theorem setLoop_RHInv (cap kp : Nat) :
    ∀ fuel entry slots size i dib,
      slots.length = cap → 0 < cap → i < cap → entry ≠ 0 →
      RHInvS cap slots →
      (cap ≤ dib ∨
        (dib = TT.dist cap i (TT.home cap (entry &&& KEY_MASK)) ∧
         ∀ j, j < cap → TT.dist cap j (TT.home cap (entry &&& KEY_MASK)) < dib →
           slots.getD j 0 ≠ 0)) →
      RHInvS cap (setLoop cap kp fuel entry slots size i dib).1 := by
  intro fuel
  induction fuel with
  | zero => intro entry slots size i dib _ _ _ _ hinv _; exact hinv
  | succ fuel ih =>
    intro entry slots size i dib hlen hcap hi hent hinv hloop
    have hhome : TT.home cap (entry &&& KEY_MASK) < cap := home_lt cap _ hcap
    simp only [setLoop]
    by_cases h1 : cap ≤ dib
    · rw [if_pos h1]; exact hinv
    rw [if_neg h1]
    rcases hloop with h2 | ⟨hdib, hpath⟩
    · omega
    have hwrite : RHInvS cap (slots.set i entry) := by
      refine RHInvS_write cap slots i entry hlen hinv hi hent ?_
      intro j hj hdj
      by_cases hje : TT.dist cap j (TT.home cap (entry &&& KEY_MASK)) = dib
      · left
        exact TT.dist_inj cap j i _ hj hi hhome (by omega)
      · right
        exact hpath j hj (by omega)
    by_cases h2 : slots.getD i 0 = 0
    · rw [if_pos h2]; exact hwrite
    rw [if_neg h2]
    by_cases h3 : slots.getD i 0 &&& KEY_MASK = kp
    · rw [if_pos h3]; exact hwrite
    rw [if_neg h3]
    have hinchome : TT.home cap (slots.getD i 0 &&& KEY_MASK) < cap := home_lt cap _ hcap
    by_cases h4 : TT.dist cap i (TT.home cap (slots.getD i 0 &&& KEY_MASK)) < dib
    · rw [if_pos h4]
      refine ih (slots.getD i 0) (slots.set i entry) size (nextIdx cap i) _
        (by rw [List.length_set]; exact hlen) hcap (nextIdx_lt cap i hi) h2 hwrite ?_
      by_cases h5 : cap ≤ TT.dist cap i (TT.home cap (slots.getD i 0 &&& KEY_MASK)) + 1
      · exact Or.inl h5
      · refine Or.inr ⟨?_, ?_⟩
        · rw [TT.dist_next cap i _ hi hinchome (by omega)]
        · intro j hj hdj
          have hocc : slots.getD j 0 ≠ 0 :=
            hinv i hi h2 j hj (by
              have := TT.dist_next cap i (TT.home cap (slots.getD i 0 &&& KEY_MASK)) hi
                hinchome (by omega)
              omega)
          rcases getD_set_cases slots i j entry with hcase | hcase
          · rw [hcase]; exact hent
          · rw [hcase]; exact hocc
    · rw [if_neg h4]
      refine ih entry slots size (nextIdx cap i) (dib + 1) hlen hcap
        (nextIdx_lt cap i hi) hent hinv ?_
      by_cases h5 : cap ≤ dib + 1
      · exact Or.inl h5
      · refine Or.inr ⟨?_, ?_⟩
        · rw [hdib] at h5 ⊢
          rw [TT.dist_next cap i _ hi hhome (by omega)]
        · intro j hj hdj
          by_cases hje : TT.dist cap j (TT.home cap (entry &&& KEY_MASK)) = dib
          · have : j = i := TT.dist_inj cap j i _ hj hi hhome (by omega)
            rw [this]
            exact h2
          · exact hpath j hj (by omega)

/-- A successful `set` preserves the Robin-Hood ordering invariant. -/
theorem set_RHInv (t t2 : TT) (k v : Int)
    (hlen : t.slots.length = t.cap) (hcap : 0 < t.cap)
    (hset : TT.set t k v = .ok t2) (hinv : RHInvS t.cap t.slots) :
    RHInvS t2.cap t2.slots ∧ t2.cap = t.cap ∧ t2.slots.length = t.slots.length := by
  rw [TT.set] at hset
  by_cases h1 : k < 0 ∨ (KEY_MAX : Int) < k
  · rw [if_pos h1] at hset; cases hset
  rw [if_neg h1] at hset
  by_cases h2 : v < 0 ∨ (((1 <<< 14 : Nat) : Int)) ≤ v
  · rw [if_pos h2] at hset; cases hset
  rw [if_neg h2] at hset
  push_neg at h1
  obtain ⟨hkp0, hkp1⟩ := kp_bounds k h1.1 h1.2
  cases hset
  have hkey : ((k.toNat + 1) ||| (v.toNat <<< VAL_SHIFT)) &&& KEY_MASK = k.toNat + 1 :=
    entry_key _ _ hkp1
  refine ⟨?_, rfl, setLoop_length t.cap (k.toNat + 1) _ _ _ _ _ _⟩
  refine setLoop_RHInv t.cap (k.toNat + 1) _ _ _ _ _ _ hlen hcap
    (home_lt t.cap _ hcap) (entry_ne_zero _ _ hkp1 hkp0) hinv (Or.inr ⟨?_, ?_⟩)
  · rw [hkey, TT.dist_self]
  · intro j _ hdj
    exact absurd hdj (Nat.not_lt_zero _)

/-- C8: after any sequence of `set` operations on a fresh table, the
Robin-Hood ordering invariant holds: no empty slot lies on the wrap-aware
path between any incumbent's home slot and its resting slot. -/
theorem C8_robin_hood_ordering (cap : Int) (t0 : TT) (ops : List (Int × Int))
    (hnew : TT.new cap = .ok t0) :
    RHInvS (applyOps t0 ops).cap (applyOps t0 ops).slots := by
  have h0 : t0.slots.length = t0.cap ∧ 0 < t0.cap ∧ RHInvS t0.cap t0.slots := by
    rw [TT.new] at hnew
    by_cases hc : cap ≤ 0
    · rw [if_pos hc] at hnew; cases hnew
    · rw [if_neg hc] at hnew
      cases hnew
      refine ⟨List.length_replicate _ _, by show 0 < cap.toNat; omega, ?_⟩
      intro i _ hocc
      rw [getD_replicate_zero] at hocc
      exact absurd rfl hocc
  clear hnew
  induction ops generalizing t0 with
  | nil => exact h0.2.2
  | cons op rest ih =>
    simp only [applyOps]
    rcases hsr : TT.set t0 op.1 op.2 with e | t2
    · exact ih t0 h0
    · refine ih t2 ?_
      obtain ⟨hinv2, hc2, hl2⟩ := set_RHInv t0 t2 op.1 op.2 h0.1 h0.2.1 hsr h0.2.2
      exact ⟨by rw [hl2, hc2]; exact h0.1, by rw [hc2]; exact h0.2.1, hinv2⟩

/-- Witness for C8 after two concrete inserts into a 4-slot table. -/
theorem C8_witness :
    TT.new 4 = .ok ⟨4, [0, 0, 0, 0], 0⟩ ∧
    RHInvS (applyOps ⟨4, [0, 0, 0, 0], 0⟩ [(0, 1), (1, 2)]).cap
      (applyOps ⟨4, [0, 0, 0, 0], 0⟩ [(0, 1), (1, 2)]).slots :=
  ⟨by decide, C8_robin_hood_ordering 4 ⟨4, [0, 0, 0, 0], 0⟩ [(0, 1), (1, 2)] (by decide)⟩

/-! ## C7: probe-path geometry -/

theorem pos_next (cap i d : Nat) (hi : i < cap) :
    (nextIdx cap i + d) % cap = (i + (d + 1)) % cap := by
  by_cases hn : i + 1 = cap
  · simp only [nextIdx, if_pos hn]
    rw [Nat.zero_add]
    have h2 : i + (d + 1) = cap + d := by omega
    rw [h2, Nat.add_mod_left]
  · simp only [nextIdx, if_neg hn]
    have h2 : i + 1 + d = i + (d + 1) := by omega
    rw [h2]

theorem pos_ne_self (cap i e0 : Nat) (hi : i < cap) (h1 : 0 < e0) (h2 : e0 < cap) :
    (i + e0) % cap ≠ i := by
  intro hcon
  rcases Nat.lt_or_ge (i + e0) cap with hlt | hge
  · rw [Nat.mod_eq_of_lt hlt] at hcon
    omega
  · have h3 : i + e0 - cap < cap := by omega
    have h4 : (i + e0) % cap = i + e0 - cap := by
      rw [Nat.mod_eq_sub_mod hge, Nat.mod_eq_of_lt h3]
    omega

theorem pos_self (cap i : Nat) (hi : i < cap) : (i + 0) % cap = i := by
  rw [Nat.add_zero, Nat.mod_eq_of_lt hi]

theorem dist_next_src (cap i j : Nat) (hi : i < cap) (hj : j < cap) (hne : j ≠ i) :
    TT.dist cap j (nextIdx cap i) = TT.dist cap j i - 1 := by
  by_cases hn : i + 1 = cap
  · simp only [nextIdx, if_pos hn]
    unfold TT.dist
    split <;> split <;> omega
  · simp only [nextIdx, if_neg hn]
    unfold TT.dist
    split <;> split <;> omega

theorem dist_self_next (cap i : Nat) (hi : i < cap) :
    TT.dist cap i (nextIdx cap i) = cap - 1 := by
  by_cases hn : i + 1 = cap
  · simp only [nextIdx, if_pos hn]
    unfold TT.dist
    split <;> omega
  · simp only [nextIdx, if_neg hn]
    unfold TT.dist
    split <;> omega

theorem pos_dist (cap j hm : Nat) (hj : j < cap) (hh : hm < cap) :
    (hm + TT.dist cap j hm) % cap = j := by
  unfold TT.dist
  split
  · have h2 : hm + (j - hm) = j := by omega
    rw [h2, Nat.mod_eq_of_lt hj]
  · have h2 : hm + (j + cap - hm) = j + cap := by omega
    rw [h2, Nat.add_mod_right, Nat.mod_eq_of_lt hj]

/-- Locality of the `set` loop: with a free slot at path distance `e0`
ahead (and enough fuel and guard room), the loop never writes to a slot
whose path distance from the starting index exceeds `e0`. -/
theorem setLoop_writes (cap kp : Nat) :
    ∀ fuel (e0 : Nat) entry (slots : List Nat) size i dib,
      slots.length = cap → 0 < cap → i < cap →
      slots.getD ((i + e0) % cap) 0 = 0 → dib + e0 < cap → e0 < fuel →
      ∀ j, j < cap → e0 < TT.dist cap j i →
        (setLoop cap kp fuel entry slots size i dib).1.getD j 0 = slots.getD j 0 := by
  intro fuel
  induction fuel with
  | zero => intro e0 entry slots size i dib _ _ _ _ _ hf; omega
  | succ fuel ih =>
    intro e0 entry slots size i dib hlen hcap hi hfree hguard hfuel j hj hdj
    have hji : j ≠ i := by
      intro hcon
      rw [hcon, TT.dist_self] at hdj
      omega
    simp only [setLoop]
    rw [if_neg (by omega : ¬ cap ≤ dib)]
    by_cases h2 : slots.getD i 0 = 0
    · rw [if_pos h2, getD_set_ne slots i j entry (fun hcon => hji hcon.symm)]
    rw [if_neg h2]
    have he0 : 0 < e0 := by
      rcases Nat.eq_zero_or_pos e0 with h | h
      · rw [h, pos_self cap i hi] at hfree
        exact absurd hfree h2
      · exact h
    have hfree2 : ∀ ent2, ((slots.set i ent2).getD ((i + e0) % cap) 0 = 0) := by
      intro ent2
      rw [getD_set_ne slots i _ ent2
        (fun hcon => pos_ne_self cap i e0 hi he0 (by omega) hcon.symm)]
      exact hfree
    have hfreenext : ∀ ent2, ((slots.set i ent2).getD ((nextIdx cap i + (e0 - 1)) % cap) 0 = 0) := by
      intro ent2
      rw [pos_next cap i (e0 - 1) hi]
      have h3 : e0 - 1 + 1 = e0 := by omega
      rw [h3]
      exact hfree2 ent2
    have hfreenext2 : slots.getD ((nextIdx cap i + (e0 - 1)) % cap) 0 = 0 := by
      rw [pos_next cap i (e0 - 1) hi]
      have h3 : e0 - 1 + 1 = e0 := by omega
      rw [h3]
      exact hfree
    have hdnext : e0 - 1 < TT.dist cap j (nextIdx cap i) := by
      rw [dist_next_src cap i j hi hj hji]
      omega
    by_cases h3 : slots.getD i 0 &&& KEY_MASK = kp
    · rw [if_pos h3, getD_set_ne slots i j entry (fun hcon => hji hcon.symm)]
    rw [if_neg h3]
    by_cases h4 : TT.dist cap i (TT.home cap (slots.getD i 0 &&& KEY_MASK)) < dib
    · rw [if_pos h4]
      rw [ih (e0 - 1) _ _ _ _ _ (by rw [List.length_set]; exact hlen) hcap
        (nextIdx_lt cap i hi) (hfreenext entry) (by omega) (by omega) j hj hdnext]
      rw [getD_set_ne slots i j entry (fun hcon => hji hcon.symm)]
    · rw [if_neg h4]
      rw [ih (e0 - 1) _ _ _ _ _ hlen hcap (nextIdx_lt cap i hi) hfreenext2
        (by omega) (by omega) j hj hdnext]

/-- Combined simulation of first insert, lookup, in-place update and second
lookup of one key along the shared probe prefix.  Starting anywhere on the
probe path with the first free slot at path distance `e0`, all four walks
take the same decisions at each slot: the first `set` leaves the key's
entry at the first empty/matching/stealing slot, both `get`s find it there,
and the second `set` updates it in place without changing the size. -/
theorem set_get_sim (cap kp : Nat) :
    ∀ e0 : Nat, ∀ (slots : List Nat) (size i dib e1 e2 f1 f2 g1 g2 : Nat),
      slots.length = cap → 0 < cap → i < cap →
      slots.getD ((i + e0) % cap) 0 = 0 →
      (∀ d, d < e0 → slots.getD ((i + d) % cap) 0 ≠ 0) →
      dib + e0 < cap →
      e1 &&& KEY_MASK = kp → e1 ≠ 0 → e2 &&& KEY_MASK = kp → e2 ≠ 0 →
      e0 < f1 → e0 < f2 → e0 < g1 → e0 < g2 →
      ∃ s1 z1 s2,
        setLoop cap kp f1 e1 slots size i dib = (s1, z1) ∧
        getLoop cap kp s1 g1 i dib = some (e1 >>> VAL_SHIFT) ∧
        setLoop cap kp f2 e2 s1 z1 i dib = (s2, z1) ∧
        getLoop cap kp s2 g2 i dib = some (e2 >>> VAL_SHIFT) ∧
        s1.length = cap ∧ s2.length = cap ∧
        (∀ j, j < cap → e0 < TT.dist cap j i →
          s1.getD j 0 = slots.getD j 0 ∧ s2.getD j 0 = s1.getD j 0) := by
  intro e0
  induction e0 with
  | zero =>
    intro slots size i dib e1 e2 f1 f2 g1 g2 hlen hcap hi hfree0 _ hguard
      hk1 hne1 hk2 hne2 hf1 hf2 hg1 hg2
    obtain ⟨f1p, rfl⟩ : ∃ x, f1 = x + 1 := ⟨f1 - 1, by omega⟩
    obtain ⟨f2p, rfl⟩ : ∃ x, f2 = x + 1 := ⟨f2 - 1, by omega⟩
    obtain ⟨g1p, rfl⟩ : ∃ x, g1 = x + 1 := ⟨g1 - 1, by omega⟩
    obtain ⟨g2p, rfl⟩ : ∃ x, g2 = x + 1 := ⟨g2 - 1, by omega⟩
    rw [pos_self cap i hi] at hfree0
    have hilen : i < slots.length := by omega
    have hget1 : (slots.set i e1).getD i 0 = e1 := getD_set_self slots i e1 hilen
    have hget2 : ((slots.set i e1).set i e2).getD i 0 = e2 :=
      getD_set_self _ i e2 (by rw [List.length_set]; omega)
    refine ⟨slots.set i e1, size + 1, (slots.set i e1).set i e2, ?_, ?_, ?_, ?_, ?_, ?_, ?_⟩
    · simp only [setLoop]
      rw [if_neg (by omega : ¬ cap ≤ dib), if_pos hfree0]
    · simp only [getLoop]
      rw [if_neg (by omega : ¬ cap ≤ dib), hget1, if_neg hne1, if_pos hk1]
    · simp only [setLoop]
      rw [if_neg (by omega : ¬ cap ≤ dib), hget1, if_neg hne1, if_pos hk1]
    · simp only [getLoop]
      rw [if_neg (by omega : ¬ cap ≤ dib), hget2, if_neg hne2, if_pos hk2]
    · rw [List.length_set]; exact hlen
    · rw [List.length_set, List.length_set]; exact hlen
    · intro j hj hdj
      have hji : i ≠ j := by
        intro hcon
        rw [hcon, TT.dist_self] at hdj
        omega
      exact ⟨getD_set_ne slots i j e1 hji, getD_set_ne _ i j e2 hji⟩
  | succ d0 ih =>
    intro slots size i dib e1 e2 f1 f2 g1 g2 hlen hcap hi hfree0 hoccs hguard
      hk1 hne1 hk2 hne2 hf1 hf2 hg1 hg2
    obtain ⟨f1p, rfl⟩ : ∃ x, f1 = x + 1 := ⟨f1 - 1, by omega⟩
    obtain ⟨f2p, rfl⟩ : ∃ x, f2 = x + 1 := ⟨f2 - 1, by omega⟩
    obtain ⟨g1p, rfl⟩ : ∃ x, g1 = x + 1 := ⟨g1 - 1, by omega⟩
    obtain ⟨g2p, rfl⟩ : ∃ x, g2 = x + 1 := ⟨g2 - 1, by omega⟩
    have hilen : i < slots.length := by omega
    have hocc : slots.getD i 0 ≠ 0 := by
      have := hoccs 0 (by omega)
      rw [pos_self cap i hi] at this
      exact this
    by_cases hmatch : slots.getD i 0 &&& KEY_MASK = kp
    · have hget1 : (slots.set i e1).getD i 0 = e1 := getD_set_self slots i e1 hilen
      have hget2 : ((slots.set i e1).set i e2).getD i 0 = e2 :=
        getD_set_self _ i e2 (by rw [List.length_set]; omega)
      refine ⟨slots.set i e1, size, (slots.set i e1).set i e2, ?_, ?_, ?_, ?_, ?_, ?_, ?_⟩
      · simp only [setLoop]
        rw [if_neg (by omega : ¬ cap ≤ dib), if_neg hocc, if_pos hmatch]
      · simp only [getLoop]
        rw [if_neg (by omega : ¬ cap ≤ dib), hget1, if_neg hne1, if_pos hk1]
      · simp only [setLoop]
        rw [if_neg (by omega : ¬ cap ≤ dib), hget1, if_neg hne1, if_pos hk1]
      · simp only [getLoop]
        rw [if_neg (by omega : ¬ cap ≤ dib), hget2, if_neg hne2, if_pos hk2]
      · rw [List.length_set]; exact hlen
      · rw [List.length_set, List.length_set]; exact hlen
      · intro j hj hdj
        have hji : i ≠ j := by
          intro hcon
          rw [hcon, TT.dist_self] at hdj
          omega
        exact ⟨getD_set_ne slots i j e1 hji, getD_set_ne _ i j e2 hji⟩
    · by_cases hsteal :
          TT.dist cap i (TT.home cap (slots.getD i 0 &&& KEY_MASK)) < dib
      · rcases hch : setLoop cap kp f1p (slots.getD i 0) (slots.set i e1) size
            (nextIdx cap i) (TT.dist cap i (TT.home cap (slots.getD i 0 &&& KEY_MASK)) + 1)
          with ⟨s1, z1⟩
        have hfreenext : (slots.set i e1).getD ((nextIdx cap i + d0) % cap) 0 = 0 := by
          rw [pos_next cap i d0 hi]
          rw [getD_set_ne slots i _ e1
            (fun hcon => pos_ne_self cap i (d0 + 1) hi (by omega) (by omega) hcon.symm)]
          exact hfree0
        have hwr : ∀ j, j < cap → d0 < TT.dist cap j (nextIdx cap i) →
            s1.getD j 0 = (slots.set i e1).getD j 0 := by
          intro j hj hdj
          have := setLoop_writes cap kp f1p d0 (slots.getD i 0) (slots.set i e1) size
            (nextIdx cap i) (TT.dist cap i (TT.home cap (slots.getD i 0 &&& KEY_MASK)) + 1)
            (by rw [List.length_set]; exact hlen) hcap (nextIdx_lt cap i hi)
            hfreenext (by omega) (by omega) j hj hdj
          rw [hch] at this
          exact this
        have hs1i : s1.getD i 0 = e1 := by
          rw [hwr i hi (by rw [dist_self_next cap i hi]; omega)]
          exact getD_set_self slots i e1 hilen
        have hs1len : s1.length = cap := by
          have := setLoop_length cap kp f1p (slots.getD i 0) (slots.set i e1) size
            (nextIdx cap i) (TT.dist cap i (TT.home cap (slots.getD i 0 &&& KEY_MASK)) + 1)
          rw [hch] at this
          simp only at this
          rw [this, List.length_set]
          exact hlen
        have hget2 : (s1.set i e2).getD i 0 = e2 :=
          getD_set_self s1 i e2 (by omega)
        refine ⟨s1, z1, s1.set i e2, ?_, ?_, ?_, ?_, hs1len, ?_, ?_⟩
        · simp only [setLoop]
          rw [if_neg (by omega : ¬ cap ≤ dib), if_neg hocc, if_neg hmatch,
            if_pos hsteal]
          exact hch
        · simp only [getLoop]
          rw [if_neg (by omega : ¬ cap ≤ dib), hs1i, if_neg hne1, if_pos hk1]
        · simp only [setLoop]
          rw [if_neg (by omega : ¬ cap ≤ dib), hs1i, if_neg hne1, if_pos hk1]
        · simp only [getLoop]
          rw [if_neg (by omega : ¬ cap ≤ dib), hget2, if_neg hne2, if_pos hk2]
        · rw [List.length_set]; exact hs1len
        · intro j hj hdj
          have hji : j ≠ i := by
            intro hcon
            rw [hcon, TT.dist_self] at hdj
            omega
          constructor
          · rw [hwr j hj (by rw [dist_next_src cap i j hi hj hji]; omega)]
            rw [getD_set_ne slots i j e1 (fun hcon => hji hcon.symm)]
          · rw [getD_set_ne s1 i j e2 (fun hcon => hji hcon.symm)]
      · have hfreenext : slots.getD ((nextIdx cap i + d0) % cap) 0 = 0 := by
          rw [pos_next cap i d0 hi]
          exact hfree0
        have hoccnext : ∀ d, d < d0 → slots.getD ((nextIdx cap i + d) % cap) 0 ≠ 0 := by
          intro d hd
          rw [pos_next cap i d hi]
          exact hoccs (d + 1) (by omega)
        obtain ⟨s1, z1, s2, ihset1, ihget1, ihset2, ihget2, ihlen1, ihlen2, ihloc⟩ :=
          ih slots size (nextIdx cap i) (dib + 1) e1 e2 f1p f2p g1p g2p hlen hcap
            (nextIdx_lt cap i hi) hfreenext hoccnext (by omega) hk1 hne1 hk2 hne2
            (by omega) (by omega) (by omega) (by omega)
        have hiloc := ihloc i hi (by rw [dist_self_next cap i hi]; omega)
        refine ⟨s1, z1, s2, ?_, ?_, ?_, ?_, ihlen1, ihlen2, ?_⟩
        · simp only [setLoop]
          rw [if_neg (by omega : ¬ cap ≤ dib), if_neg hocc, if_neg hmatch,
            if_neg hsteal]
          exact ihset1
        · simp only [getLoop]
          rw [if_neg (by omega : ¬ cap ≤ dib), hiloc.1, if_neg hocc, if_neg hmatch,
            if_neg hsteal]
          exact ihget1
        · simp only [setLoop]
          rw [if_neg (by omega : ¬ cap ≤ dib), hiloc.1, if_neg hocc, if_neg hmatch,
            if_neg hsteal]
          exact ihset2
        · simp only [getLoop]
          rw [if_neg (by omega : ¬ cap ≤ dib), hiloc.2, hiloc.1, if_neg hocc,
            if_neg hmatch, if_neg hsteal]
          exact ihget2
        · intro j hj hdj
          have hji : j ≠ i := by
            intro hcon
            rw [hcon, TT.dist_self] at hdj
            omega
          exact ihloc j hj (by rw [dist_next_src cap i j hi hj hji]; omega)

/-- C7: on any table state with a free slot (so the probe walk can always
place the key), setting an in-range key to `v1` and then to `v2` makes
`get` return `v2`, and the second `set` (an in-place update) leaves the
size unchanged. -/
theorem C7_update_semantics (t : TT) (k v1 v2 : Int)
    (hlen : t.slots.length = t.cap) (hcap : 0 < t.cap)
    (hfree : ∃ j, j < t.cap ∧ t.slots.getD j 0 = 0)
    (hk0 : 0 ≤ k) (hk1 : k ≤ (KEY_MAX : Int))
    (hv10 : 0 ≤ v1) (hv11 : v1 < ((1 <<< 14 : Nat) : Int))
    (hv20 : 0 ≤ v2) (hv21 : v2 < ((1 <<< 14 : Nat) : Int)) :
    ∃ t1 t2, TT.set t k v1 = .ok t1 ∧ TT.set t1 k v2 = .ok t2 ∧
      TT.get t2 k = .ok (some v2.toNat) ∧ t2.size = t1.size := by
  obtain ⟨hkp0, hkp1⟩ := kp_bounds k hk0 hk1
  have hhome : TT.home t.cap (k.toNat + 1) < t.cap := home_lt t.cap _ hcap
  have hex : ∃ d, d < t.cap ∧
      t.slots.getD ((TT.home t.cap (k.toNat + 1) + d) % t.cap) 0 = 0 := by
    obtain ⟨j, hj, hjfree⟩ := hfree
    refine ⟨TT.dist t.cap j (TT.home t.cap (k.toNat + 1)),
      TT.dist_lt _ _ _ hj hhome, ?_⟩
    rw [pos_dist _ j _ hj hhome]
    exact hjfree
  have he0 := Nat.find_spec hex
  have hmin : ∀ d, d < Nat.find hex →
      t.slots.getD ((TT.home t.cap (k.toNat + 1) + d) % t.cap) 0 ≠ 0 := by
    intro d hd hcon
    exact Nat.find_min hex hd ⟨by omega, hcon⟩
  have hcaple : t.cap ≤ t.cap * t.cap + t.cap + 1 :=
    le_trans (Nat.le_add_left t.cap (t.cap * t.cap)) (Nat.le_succ _)
  obtain ⟨s1, z1, s2, hset1, hget1, hset2, hget2, hlen1, hlen2, hloc⟩ :=
    set_get_sim t.cap (k.toNat + 1) (Nat.find hex) t.slots t.size
      (TT.home t.cap (k.toNat + 1)) 0
      ((k.toNat + 1) ||| (v1.toNat <<< VAL_SHIFT))
      ((k.toNat + 1) ||| (v2.toNat <<< VAL_SHIFT))
      (t.cap * t.cap + t.cap + 1) (t.cap * t.cap + t.cap + 1) (t.cap + 1) (t.cap + 1)
      hlen hcap hhome he0.2 hmin (by have := he0.1; omega)
      (entry_key _ _ hkp1) (entry_ne_zero _ _ hkp1 hkp0)
      (entry_key _ _ hkp1) (entry_ne_zero _ _ hkp1 hkp0)
      (lt_of_lt_of_le he0.1 hcaple) (lt_of_lt_of_le he0.1 hcaple)
      (by have := he0.1; omega) (by have := he0.1; omega)
  refine ⟨⟨t.cap, s1, z1⟩, ⟨t.cap, s2, z1⟩, ?_, ?_, ?_, rfl⟩
  · rw [set_ok t k v1 hk0 hk1 hv10 hv11, hset1]
  · rw [set_ok ⟨t.cap, s1, z1⟩ k v2 hk0 hk1 hv20 hv21]
    simp only []
    rw [hset2]
  · rw [get_ok ⟨t.cap, s2, z1⟩ k hk0 hk1]
    simp only []
    rw [hget2, entry_val _ _ hkp1]

/-- Witness for C7 on the empty 4-slot table with key 0, values 5 then 9. -/
theorem C7_witness :
    tt4.slots.length = tt4.cap ∧
    (∃ t1 t2, TT.set tt4 0 5 = .ok t1 ∧ TT.set t1 0 9 = .ok t2 ∧
      TT.get t2 0 = .ok (some (9 : Int).toNat) ∧ t2.size = t1.size) :=
  ⟨by decide, C7_update_semantics tt4 0 5 9 (by decide) (by decide)
    ⟨0, by decide, by decide⟩ (by decide) (by decide) (by decide) (by decide)
    (by decide) (by decide)⟩

/-! ## C1: codec round trip -/

/-- The character of the cell `rfb` rows from the bottom of a column of
height `h` whose 'o'-stone bit pattern is `p`: a stone character below the
height, `'.'` above it. -/
def cellChar (h p rfb : Nat) : Char :=
  if rfb < h then (if (p >>> rfb) &&& 1 = 1 then 'o' else 'x') else '.'

theorem or_high_eq_add (p h0 : Nat) (hp : p < 2 ^ h0) :
    p ||| (1 <<< h0) = p + 2 ^ h0 := by
  have key := Nat.mul_add_lt_is_or hp 1
  rw [mul_one] at key
  rw [Nat.one_shiftLeft, Nat.or_comm, ← key]
  omega

theorem bit_lt (p rfb : Nat) (h : p < 2 ^ rfb) : (p >>> rfb) &&& 1 = 0 := by
  rw [Nat.shiftRight_eq_div_pow, Nat.div_eq_of_lt h]
  rfl

theorem bit_or_high (p h0 rfb : Nat) (hp : p < 2 ^ h0) (hr : rfb < h0) :
    ((p ||| (1 <<< h0)) >>> rfb) &&& 1 = (p >>> rfb) &&& 1 := by
  rw [or_high_eq_add p h0 hp, Nat.shiftRight_eq_div_pow, Nat.shiftRight_eq_div_pow,
    Nat.and_one_is_mod, Nat.and_one_is_mod]
  have hd : (2 : Nat) ^ h0 = 2 ^ rfb * 2 ^ (h0 - rfb) := by
    rw [← pow_add]
    congr 1
    omega
  rw [hd, Nat.add_mul_div_left _ _ (by positivity)]
  have heven : 2 ^ (h0 - rfb) % 2 = 0 := by
    obtain ⟨k, hk⟩ : ∃ k, h0 - rfb = k + 1 := ⟨h0 - rfb - 1, by omega⟩
    rw [hk, pow_succ, Nat.mul_mod_left]
  omega

theorem bit_or_self (p h0 : Nat) (hp : p < 2 ^ h0) :
    ((p ||| (1 <<< h0)) >>> h0) &&& 1 = 1 := by
  rw [or_high_eq_add p h0 hp, Nat.shiftRight_eq_div_pow, Nat.and_one_is_mod,
    Nat.add_div_right _ (by positivity), Nat.div_eq_of_lt hp]

/-- The two encoding loops run in lockstep: they share the height function,
fail on exactly the same inputs, and on success the character board of the
42-cell simulation is determined cell by cell by the heights and patterns
of the 49-bit encoder. -/
theorem enc_loops_sim :
    ∀ (s : List Nat) (ply : Nat) (board : Nat → Nat → Char) (hs ps : Nat → Nat),
      (∀ c, ps c < 2 ^ hs c) →
      (∀ r c, r < 6 → board r c = cellChar (hs c) (ps c) (5 - r)) →
      (moveseq_to_board_42_loop 7 6 s ply board hs = none ∧
        moveseq_to_board49_loop 7 6 s ply hs ps = none) ∨
      (∃ board2 hs2 ps2,
        moveseq_to_board_42_loop 7 6 s ply board hs = some (board2, hs2) ∧
        moveseq_to_board49_loop 7 6 s ply hs ps = some (hs2, ps2) ∧
        ∀ r c, r < 6 → board2 r c = cellChar (hs2 c) (ps2 c) (5 - r)) := by
  intro s
  induction s with
  | nil =>
    intro ply board hs ps hps hrel
    right
    exact ⟨board, hs, ps, rfl, rfl, hrel⟩
  | cons col rest ih =>
    intro ply board hs ps hps hrel
    simp only [moveseq_to_board_42_loop, moveseq_to_board49_loop]
    by_cases g1 : 10 ≤ col
    · simp only [if_pos g1]
      exact Or.inl ⟨trivial, trivial⟩
    simp only [if_neg g1]
    by_cases g2 : 7 ≤ col
    · simp only [if_pos g2]
      exact Or.inl ⟨trivial, trivial⟩
    simp only [if_neg g2]
    by_cases g3 : 6 ≤ hs col
    · simp only [if_pos g3]
      exact Or.inl ⟨trivial, trivial⟩
    simp only [if_neg g3]
    apply ih
    · intro c
      by_cases hply : ply % 2 = 1
      · rw [if_pos hply]
        by_cases hc : c = col
        · subst hc
          rw [if_pos (rfl : c = c), if_pos (rfl : c = c)]
          have hx : ps c < 2 ^ (hs c + 1) :=
            lt_of_lt_of_le (hps c) (Nat.pow_le_pow_right (by norm_num) (by omega))
          have hy : (1 <<< hs c) < 2 ^ (hs c + 1) := by
            rw [Nat.one_shiftLeft]
            exact Nat.pow_lt_pow_right (by norm_num) (by omega)
          exact Nat.or_lt_two_pow hx hy
        · rw [if_neg hc, if_neg hc]
          exact hps c
      · rw [if_neg hply]
        by_cases hc : c = col
        · subst hc
          rw [if_pos (rfl : c = c)]
          exact lt_of_lt_of_le (hps c) (Nat.pow_le_pow_right (by norm_num) (by omega))
        · rw [if_neg hc]
          exact hps c
    · intro r c hr
      by_cases hc : c = col
      · subst hc
        by_cases hply : ply % 2 = 1
        · simp only [if_pos hply, eq_self_iff_true, true_and, and_true, if_true]
          by_cases hrow : r = 6 - 1 - hs c
          · rw [if_pos hrow, if_neg (by omega : ¬ ply % 2 = 0)]
            have h5 : 5 - r = hs c := by omega
            rw [h5]
            unfold cellChar
            rw [if_pos (Nat.lt_succ_self (hs c)), bit_or_self (ps c) (hs c) (hps c),
              if_pos (rfl : (1 : Nat) = 1)]
          · rw [if_neg hrow]
            rw [hrel r c hr]
            unfold cellChar
            by_cases hlt : 5 - r < hs c
            · rw [if_pos hlt, if_pos (by omega : 5 - r < hs c + 1),
                bit_or_high (ps c) (hs c) (5 - r) (hps c) hlt]
            · rw [if_neg hlt, if_neg (by omega : ¬ 5 - r < hs c + 1)]
        · simp only [if_neg hply, eq_self_iff_true, true_and, and_true, if_true]
          by_cases hrow : r = 6 - 1 - hs c
          · rw [if_pos hrow, if_pos (by omega : ply % 2 = 0)]
            have h5 : 5 - r = hs c := by omega
            rw [h5]
            unfold cellChar
            rw [if_pos (Nat.lt_succ_self (hs c)), bit_lt (ps c) (hs c) (hps c),
              if_neg (by decide : ¬ (0 : Nat) = 1)]
          · rw [if_neg hrow]
            rw [hrel r c hr]
            unfold cellChar
            by_cases hlt : 5 - r < hs c
            · rw [if_pos hlt, if_pos (by omega : 5 - r < hs c + 1)]
            · rw [if_neg hlt, if_neg (by omega : ¬ 5 - r < hs c + 1)]
      · rw [if_neg (fun hand => hc hand.2)]
        rw [hrel r c hr]
        by_cases hply : ply % 2 = 1
        · simp only [if_pos hply]
          rw [if_neg hc, if_neg hc]
        · simp only [if_neg hply]
          rw [if_neg hc]

/-- Effect of the per-column cell-writing fold of `board49_to_board42_cols`:
it overwrites exactly the `h` bottom cells of column `col` with the stone
characters read off the pattern `p`. -/
theorem dec_fold (col p : Nat) : ∀ (h : Nat), h ≤ 6 → ∀ (bd : Nat → Nat → Char) (r c : Nat),
    ((List.range h).foldl (fun bd rfb => fun r c =>
        if r = 6 - 1 - rfb ∧ c = col
        then (if (p >>> rfb) &&& 1 = 1 then 'o' else 'x') else bd r c) bd) r c
      = if r < 6 ∧ c = col ∧ 5 - r < h
        then (if (p >>> (5 - r)) &&& 1 = 1 then 'o' else 'x') else bd r c := by
  intro h
  induction h with
  | zero =>
    intro _ bd r c
    simp only [List.range_zero, List.foldl_nil]
    rw [if_neg (fun hand => absurd hand.2.2 (by omega))]
  | succ h ih =>
    intro hle bd r c
    simp only [List.range_succ, List.foldl_append, List.foldl_cons, List.foldl_nil]
    by_cases hw : r = 6 - 1 - h ∧ c = col
    · obtain ⟨hwr, hwc⟩ := hw
      rw [if_pos (⟨hwr, hwc⟩ : r = 6 - 1 - h ∧ c = col)]
      have h5 : 5 - r = h := by omega
      rw [if_pos (⟨by omega, hwc, by omega⟩ : r < 6 ∧ c = col ∧ 5 - r < h + 1), h5]
    · rw [if_neg hw, ih (by omega) bd r c]
      by_cases hr6 : r < 6
      · by_cases hccol : c = col
        · by_cases hlt : 5 - r < h
          · rw [if_pos (⟨hr6, hccol, hlt⟩ : r < 6 ∧ c = col ∧ 5 - r < h)]
            rw [if_pos (⟨hr6, hccol, by omega⟩ : r < 6 ∧ c = col ∧ 5 - r < h + 1)]
          · have hne : ¬ r = 6 - 1 - h := fun hh => hw ⟨hh, hccol⟩
            rw [if_neg (fun hand => hlt hand.2.2),
              if_neg (fun hand => absurd hand.2.2 (by omega))]
        · rw [if_neg (fun hand => hccol hand.2.1), if_neg (fun hand => hccol hand.2.1)]
      · rw [if_neg (fun hand => hr6 hand.1), if_neg (fun hand => hr6 hand.1)]

/-- Effect of the column loop of `board49_to_board42`: when every column
code of `b` below 7 is the encoder's column code for heights `hs` and
patterns `ps`, the loop succeeds and fills each visited column with the
cell characters determined by `hs` and `ps`. -/
theorem dec_cols (b : Nat) (hs ps : Nat → Nat)
    (hh : ∀ c, hs c ≤ 6) (hp : ∀ c, ps c < 2 ^ hs c)
    (hb : ∀ col, col < 7 → (b >>> (7 * col)) &&& ((1 <<< 7) - 1) = colCode hs ps col) :
    ∀ (cols : List Nat), (∀ x ∈ cols, x < 7) → ∀ (bd : Nat → Nat → Char),
      ∃ bd2, board49_to_board42_cols 6 b cols bd = some bd2 ∧
        ∀ r c, r < 6 → bd2 r c =
          if c ∈ cols ∧ 5 - r < hs c then cellChar (hs c) (ps c) (5 - r) else bd r c := by
  intro cols
  induction cols with
  | nil =>
    intro _ bd
    refine ⟨bd, rfl, ?_⟩
    intro r c _
    rw [if_neg (fun hand => (List.not_mem_nil c) hand.1)]
  | cons col rest ihc =>
    intro hmem bd
    have hcol7 : col < 7 := hmem col (List.mem_cons_self col rest)
    simp only [board49_to_board42_cols]
    rw [hb col hcol7]
    have hsl : (1 <<< hs col : Nat) = 2 ^ hs col := Nat.one_shiftLeft _
    have h1 : 1 ≤ 2 ^ hs col := Nat.one_le_two_pow
    have hpand : ps col &&& ((1 <<< hs col) - 1) = ps col := by
      rw [hsl, Nat.and_pow_two_sub_one_eq_mod, Nat.mod_eq_of_lt (hp col)]
    have hcode : colCode hs ps col = 2 ^ hs col - 1 + ps col := by
      unfold colCode
      rw [hpand, hsl]
    have hg1 : ¬ ((1 <<< (6 + 1)) - 2 < colCode hs ps col) := by
      have hle := colCode_le hs ps col (hh col)
      have h2 : (1 <<< (6 + 1) : Nat) = 128 := by decide
      omega
    rw [if_neg hg1]
    have hbl : bitLength (colCode hs ps col + 1) - 1 = hs col := by
      have harg : colCode hs ps col + 1 = 2 ^ hs col + ps col := by
        rw [hcode]
        omega
      rw [harg]
      unfold bitLength
      rw [if_neg (by omega : ¬ 2 ^ hs col + ps col = 0)]
      rw [Nat.log2_eq_log_two]
      have hlog : Nat.log 2 (2 ^ hs col + ps col) = hs col := by
        apply Nat.log_eq_of_pow_le_of_lt_pow (by omega)
        have h3 : (2 : Nat) ^ (hs col + 1) = 2 ^ hs col * 2 := pow_succ 2 (hs col)
        have h4 := hp col
        omega
      rw [hlog]
      omega
    rw [hbl]
    rw [if_neg (by have := hh col; omega : ¬ 6 < hs col)]
    have hpat : colCode hs ps col - ((1 <<< hs col) - 1) = ps col := by
      rw [hsl, hcode]
      omega
    rw [hpat]
    obtain ⟨bd2, hrec, hrel2⟩ := ihc (fun x hx => hmem x (List.mem_cons_of_mem col hx)) _
    refine ⟨bd2, hrec, ?_⟩
    intro r c hr
    rw [hrel2 r c hr]
    rw [dec_fold col (ps col) (hs col) (hh col) bd r c]
    by_cases hin : c ∈ rest ∧ 5 - r < hs c
    · rw [if_pos hin]
      rw [if_pos (⟨List.mem_cons_of_mem col hin.1, hin.2⟩ : c ∈ col :: rest ∧ 5 - r < hs c)]
    · rw [if_neg hin]
      by_cases hccol : c = col
      · subst hccol
        by_cases h2 : 5 - r < hs c
        · rw [if_pos (⟨hr, rfl, h2⟩ : r < 6 ∧ c = c ∧ 5 - r < hs c)]
          rw [if_pos (⟨List.mem_cons_self c rest, h2⟩ : c ∈ c :: rest ∧ 5 - r < hs c)]
          unfold cellChar
          rw [if_pos h2]
        · rw [if_neg (fun hand => h2 hand.2.2), if_neg (fun hand => h2 hand.2)]
      · rw [if_neg (fun hand => hccol hand.2.1),
          if_neg (fun hand => (List.mem_cons.mp hand.1).elim
            (fun he => hccol he) (fun hm => hin ⟨hm, hand.2⟩))]

/-- C1: codec round trip.  For every legal move sequence (one on which the
straightforward row/column simulation `moveseq_to_board_42` succeeds),
`moveseq_to_board49` succeeds as well and decoding its 49-bit code with
`board49_to_board42` reproduces exactly the simulated 42-character board. -/
theorem C1_codec_round_trip (s : List Nat) (b42 : List Char)
    (h42 : moveseq_to_board_42 s 7 6 = some b42) :
    ∃ b49, moveseq_to_board49 s 7 6 = some b49 ∧
      board49_to_board42 ((b49 : Nat) : Int) 7 6 = some b42 := by
  rcases enc_loops_sim s 0 (fun _ _ => '.') (fun _ => 0) (fun _ => 0)
      (fun _ => by norm_num) (fun _ _ _ => rfl) with
    ⟨hl42, hl49⟩ | ⟨board2, hs2, ps2, h42l, h49l, hrel⟩
  · rw [moveseq_to_board_42, hl42] at h42
    simp at h42
  · rw [moveseq_to_board_42] at h42
    simp only [h42l, Option.some.injEq] at h42
    have hbex : ∃ b, moveseq_to_board49 s 7 6 = some b := by
      rw [moveseq_to_board49, if_neg (by simp)]
      simp only [h49l]
      exact ⟨_, rfl⟩
    obtain ⟨b, hb⟩ := hbex
    obtain ⟨hs2x, ps2x, hloopx, hhx, hpx, hbeq⟩ := moveseq_to_board49_eq s b hb
    rw [h49l] at hloopx
    simp only [Option.some.injEq, Prod.mk.injEq] at hloopx
    obtain ⟨e1, e2⟩ := hloopx
    subst e1
    subst e2
    obtain ⟨hh2, hp2⟩ := enc_loop_inv s 0 _ _ hs2 ps2 h49l
      (fun _ => by norm_num) (fun _ => by norm_num)
    have hcol : ∀ col, col < 7 →
        (b >>> (7 * col)) &&& ((1 <<< 7) - 1) = colCode hs2 ps2 col := by
      intro col hcol7
      rw [Nat.shiftRight_eq_div_pow,
        (by decide : ((1 <<< 7 : Nat) - 1) = 2 ^ 7 - 1),
        Nat.and_pow_two_sub_one_eq_mod,
        (by rw [pow_mul] : (2 : Nat) ^ (7 * col) = (2 ^ 7) ^ col),
        (by norm_num : ((2 : Nat) ^ 7) = 128), hbeq]
      rw [packList_extract _ (by
        intro y hy
        obtain ⟨c, _, rfl⟩ := List.mem_map.mp hy
        exact lt_of_le_of_lt (colCode_le hs2 ps2 c (hh2 c)) (by norm_num)) col]
      rw [List.getD_eq_getElem?_getD, List.getElem?_map, List.getElem?_range hcol7]
      rfl
    obtain ⟨bd2, hcols, hbd2⟩ := dec_cols b hs2 ps2 hh2 hp2 hcol (List.range 7)
      (fun x hx => List.mem_range.mp hx) (fun _ _ => '.')
    refine ⟨b, hb, ?_⟩
    rw [board49_to_board42, if_neg (by exact not_lt.mpr (Int.natCast_nonneg b) : ¬ ((b : Int) < 0))]
    rw [Int.toNat_natCast]
    simp only [hcols]
    rw [← h42]
    refine congrArg some (congrArg List.flatten (List.map_congr_left ?_))
    intro r hrmem
    refine List.map_congr_left ?_
    intro c hcmem
    have hr6 := List.mem_range.mp hrmem
    have hc7 := List.mem_range.mp hcmem
    rw [hbd2 r c hr6, hrel r c hr6]
    by_cases hlt : 5 - r < hs2 c
    · rw [if_pos (⟨List.mem_range.mpr hc7, hlt⟩ : c ∈ List.range 7 ∧ 5 - r < hs2 c)]
    · rw [if_neg (fun hand => hlt hand.2)]
      unfold cellChar
      rw [if_neg hlt]

/-- Witness for C1 on the move sequence 3333332. -/
theorem C1_witness :
    ∃ b42 b49, moveseq_to_board_42 [3, 3, 3, 3, 3, 3, 2] 7 6 = some b42 ∧
      moveseq_to_board49 [3, 3, 3, 3, 3, 3, 2] 7 6 = some b49 ∧
      board49_to_board42 ((b49 : Nat) : Int) 7 6 = some b42 := by
  have hx : moveseq_to_board_42 [3, 3, 3, 3, 3, 3, 2] 7 6 =
      some "...o......x......o......x......o.....xx...".toList := by decide
  obtain ⟨b49, h1, h2⟩ := C1_codec_round_trip [3, 3, 3, 3, 3, 3, 2] _ hx
  exact ⟨_, b49, hx, h1, h2⟩
